import Mathlib

/-!
Shallow embedding of `scripts/fetch_metrics.py`: the deduplication,
normalization and aggregation pipeline for bibliographic work records.
Python values are modelled by the inductive `PyVal`; fallible Python code
(code that can raise) is modelled in the `Except PyErr` monad; pure Python
helpers become pure Lean functions.  The network fetch and file writing are
outside the modelled core, as is CPython's Unicode database: string
operations are modelled on the character fragment where Lean's ASCII-based
`Char.toLower`/`Char.isWhitespace` agree with CPython (all inputs exercised
by the claims stay inside this fragment).
-/

/-- Error kinds that the modelled Python code can raise. -/
inductive PyErr where
  | typeError
  | valueError
  | attributeError
  | indexError
  | keyError
deriving DecidableEq, Repr

/-- Model of the Python values flowing through the pipeline: `None`,
booleans, integers, floats (modelled as exact rationals), strings, lists
and string-keyed dictionaries (insertion-ordered association lists, as in
CPython; all dictionary keys occurring in this program are strings). -/
inductive PyVal where
  | none
  | bool (b : Bool)
  | int (n : Int)
  | float (q : Rat)
  | str (s : String)
  | list (xs : List PyVal)
  | dict (kvs : List (String × PyVal))

/-- A raw work record: a Python dict with string keys. -/
abbrev Obj := List (String × PyVal)

/-- Python truthiness `bool(v)` for the modelled values. -/
def truthy : PyVal → Bool
  | .none => false
  | .bool b => b
  | .int n => n != 0
  | .float q => q != 0
  | .str s => s != ""
  | .list xs => !xs.isEmpty
  | .dict kvs => !kvs.isEmpty

/-- Python `a or b` (value-returning short-circuit disjunction). -/
def pyOr (a b : PyVal) : PyVal := if truthy a then a else b

/-- Python `d.get(k)` on a dict known to be a dict (returns `None` when the
key is absent). -/
def Obj.getO (o : Obj) (k : String) : PyVal :=
  (List.lookup k o).getD PyVal.none

/-- Python `v.get(k)` on an arbitrary value: an `AttributeError` unless `v`
is a dict. -/
def PyVal.getAttr : PyVal → String → Except PyErr PyVal
  | .dict kvs, k => .ok (Obj.getO kvs k)
  | _, _ => .error .attributeError

/-- Python `v.get(k, d)` with an explicit default. -/
def PyVal.getAttrD : PyVal → String → PyVal → Except PyErr PyVal
  | .dict kvs, k, d => .ok ((List.lookup k kvs).getD d)
  | _, _, _ => .error .attributeError

/-- Whitespace test used by the modelled string operations. -/
def isWs (c : Char) : Bool := c.isWhitespace

/-- Python regex `\w` on the modelled (ASCII) character fragment. -/
def isWordChar (c : Char) : Bool := c.isAlphanum || c == '_'

/-- Drop leading and trailing whitespace from a character list. -/
def trimChars (l : List Char) : List Char :=
  ((l.dropWhile isWs).reverse.dropWhile isWs).reverse

/-- Python `s.strip()`. -/
def pyStrip (s : String) : String := String.mk (trimChars s.data)

/-- Python `s.lower()` on the modelled character fragment. -/
def pyLower (s : String) : String := String.mk (s.data.map Char.toLower)

/-- Python `s.upper()` on the modelled character fragment. -/
def pyUpper (s : String) : String := String.mk (s.data.map Char.toUpper)

/-- Python `s.startswith(pre)` (character-list prefix test). -/
def pyStartsWith (s pre : String) : Bool := pre.data.isPrefixOf s.data

/-- Worker for `removeAll`: removes non-overlapping occurrences of `old`
left to right, as CPython `str.replace(old, "")` does.  The fuel decreases
on every step; callers supply the length of the string, which is enough
because each step consumes at least one character. -/
def removeAllAux (old : List Char) : Nat → List Char → List Char
  | 0, l => l
  | _ + 1, [] => []
  | fuel + 1, c :: rest =>
      if old.isPrefixOf (c :: rest) then
        removeAllAux old fuel ((c :: rest).drop old.length)
      else
        c :: removeAllAux old fuel rest

/-- Python `s.replace(pat, "")`. -/
def removeAll (s pat : String) : String :=
  if pat.data.isEmpty then s
  else String.mk (removeAllAux pat.data s.data.length s.data)

/-- Worker for `pySplitWs` (accumulator holds the current word reversed). -/
def splitWsAux : List Char → List Char → List (List Char)
  | [], acc => if acc.isEmpty then [] else [acc.reverse]
  | c :: rest, acc =>
      if isWs c then
        if acc.isEmpty then splitWsAux rest []
        else acc.reverse :: splitWsAux rest []
      else splitWsAux rest (c :: acc)

/-- Python `s.split()` (split on whitespace runs, dropping empty parts). -/
def pySplitWs (s : String) : List String :=
  (splitWsAux s.data []).map String.mk

/-- Replace every whitespace run by a single space (regex `\s+` → `" "`);
the flag records whether the previous character was whitespace. -/
def collapseWsAux : Bool → List Char → List Char
  | _, [] => []
  | prevWs, c :: rest =>
      if isWs c then
        if prevWs then collapseWsAux true rest
        else ' ' :: collapseWsAux true rest
      else c :: collapseWsAux false rest

/-- Python `s.title()` on the modelled fragment: a letter is upper-cased
when the previous character is not a letter, lower-cased otherwise. -/
def titleChars : Bool → List Char → List Char
  | _, [] => []
  | prevAlpha, c :: rest =>
      (if c.isAlpha then (if prevAlpha then c.toLower else c.toUpper) else c)
        :: titleChars c.isAlpha rest

/-- Numeric value of a non-empty all-digit character list. -/
def digitsVal (cs : List Char) : Option Nat :=
  if cs.isEmpty then Option.none
  else if cs.all Char.isDigit then
    Option.some (cs.foldl (fun a c => a * 10 + (c.toNat - 48)) 0)
  else Option.none

/-- Parse of a Python `int` literal (optional sign, decimal digits,
surrounding whitespace), the fragment of `int(str)` the model covers. -/
def parsePyInt (s : String) : Option Int :=
  match trimChars s.data with
  | '+' :: ds => (digitsVal ds).map Int.ofNat
  | '-' :: ds => (digitsVal ds).map (fun n => -(n : Int))
  | ds => (digitsVal ds).map Int.ofNat

/-- Unsigned decimal literal with optional fractional part, as a rational. -/
def parseDecimal (ds : List Char) : Option Rat :=
  let ip := ds.takeWhile Char.isDigit
  match ds.dropWhile Char.isDigit with
  | [] => if ip.isEmpty then Option.none
      else Option.some (((digitsVal ip).getD 0 : Nat) : Rat)
  | '.' :: fp =>
      if fp.all Char.isDigit && !(ip.isEmpty && fp.isEmpty) then
        Option.some ((((digitsVal ip).getD 0 : Nat) : Rat)
          + (((digitsVal fp).getD 0 : Nat) : Rat) / ((10 : Rat) ^ fp.length))
      else Option.none
  | _ => Option.none

/-- Parse of a Python `float` literal (plain decimal forms only; exponent
and special forms lie outside the modelled fragment). -/
def parsePyFloat (s : String) : Option Rat :=
  match trimChars s.data with
  | '+' :: ds => parseDecimal ds
  | '-' :: ds => (parseDecimal ds).map Neg.neg
  | ds => parseDecimal ds

/-- Truncation toward zero, as Python `int(float)`. -/
def ratTrunc (q : Rat) : Int := if q < 0 then -((-q).floor) else q.floor

mutual

/-- Python `repr(v)` on the modelled fragment (string quoting and float
rendering are simplified; no claim depends on their exact text). -/
def pyRepr : PyVal → String
  | .none => "None"
  | .bool true => "True"
  | .bool false => "False"
  | .int n => toString n
  | .float q => toString q
  | .str s => "\x27" ++ s ++ "\x27"
  | .list xs => "[" ++ String.intercalate ", " (pyReprList xs) ++ "]"
  | .dict kvs => "\x7b" ++ String.intercalate ", " (pyReprObj kvs) ++ "\x7d"

/-- Representations of the elements of a list value. -/
def pyReprList : List PyVal → List String
  | [] => []
  | v :: vs => pyRepr v :: pyReprList vs

/-- Representations of the entries of a dict value. -/
def pyReprObj : List (String × PyVal) → List String
  | [] => []
  | (k, v) :: kvs => ("\x27" ++ k ++ "\x27: " ++ pyRepr v) :: pyReprObj kvs

end

/-- Python `str(v)`: the string itself for strings, `repr` otherwise. -/
def pyStr : PyVal → String
  | .str s => s
  | v => pyRepr v

/-- Python `int(v)` on the modelled values. -/
def pyInt : PyVal → Except PyErr Int
  | .bool b => .ok (if b then 1 else 0)
  | .int n => .ok n
  | .float q => .ok (ratTrunc q)
  | .str s =>
      match parsePyInt s with
      | Option.some n => .ok n
      | Option.none => .error .valueError
  | _ => .error .typeError

/-- Python `float(v)` on the modelled values. -/
def pyFloat : PyVal → Except PyErr Rat
  | .bool b => .ok (if b then 1 else 0)
  | .int n => .ok (n : Rat)
  | .float q => .ok q
  | .str s =>
      match parsePyFloat s with
      | Option.some q => .ok q
      | Option.none => .error .valueError
  | _ => .error .typeError

/-- `_safe_int` from the source: `int(x)` with every exception mapped to
`None`. -/
def safe_int (v : PyVal) : Option Int := (pyInt v).toOption

/-- `_safe_float` from the source: `float(x)` with every exception mapped
to `None`. -/
def safe_float (v : PyVal) : Option Rat := (pyFloat v).toOption

/-- Python `v[0]`: first element of a list or string; `IndexError` when
empty, `KeyError` for dicts, `TypeError` otherwise. -/
def pyIndex0 : PyVal → Except PyErr PyVal
  | .list (x :: _) => .ok x
  | .list [] => .error .indexError
  | .str s =>
      match s.data with
      | c :: _ => .ok (.str (String.mk [c]))
      | [] => .error .indexError
  | .dict _ => .error .keyError
  | _ => .error .typeError

/-- Python iteration `for x in v`: lists yield their elements, strings
their characters, dicts their keys; other values raise `TypeError`. -/
def pyIter : PyVal → Except PyErr (List PyVal)
  | .list xs => .ok xs
  | .str s => .ok (s.data.map fun c => PyVal.str (String.mk [c]))
  | .dict kvs => .ok (kvs.map fun kv => PyVal.str kv.1)
  | _ => .error .typeError

/-- The cleaning chain of `normalize_author_id`: strip, remove every
occurrence of the OpenAlex URL prefix, strip again, upper-case. -/
def strippedAuthorId (raw : String) : String :=
  pyUpper (pyStrip (removeAll (pyStrip raw) "https://openalex.org/"))

/-- `normalize_author_id` from the source: an empty cleaned id is a fatal
`ValueError`; otherwise an id not starting in `A` gets `A` prepended
(after `lstrip("A")`, a no-op there). -/
def normalize_author_id (raw : String) : Except PyErr String :=
  let r := strippedAuthorId raw
  if r == "" then .error .valueError
  else if pyStartsWith r "A" then .ok r
  else .ok ("A" ++ String.mk (r.data.dropWhile (· == 'A')))

/-- `normalize_person_name` from the source.  Unicode NFKD normalization
and combining-character removal are the identity on the modelled character
fragment, leaving the whitespace collapse (`" ".join(name.split())`) and
the title-casing. -/
def normalize_person_name (name : String) : String :=
  if name == "" then ""
  else String.mk (titleChars false (String.intercalate " " (pySplitWs name)).data)

/-- `pick_best_url` from the source: DOI URL if it is an http string, else
the primary location landing page, else the OpenAlex work URL, else the
placeholder `"#"`. -/
def pick_best_url (w : Obj) : Except PyErr String := do
  let ids := pyOr (Obj.getO w "ids") (.dict [])
  let doiUrl ← ids.getAttr "doi"
  if let .str s := doiUrl then
    if pyStartsWith s "http" then
      return s
  let loc := pyOr (Obj.getO w "primary_location") (.dict [])
  let landing ← loc.getAttr "landing_page_url"
  if let .str s := landing then
    if pyStartsWith s "http" then
      return s
  let wid := Obj.getO w "id"
  if let .str s := wid then
    if pyStartsWith s "http" then
      return s
  if let .str s := wid then
    return "https://openalex.org/" ++ removeAll s "https://openalex.org/"
  return "#"

/-- `extract_venue` from the source: primary location source name, else
best-OA-location source name, else the em-dash placeholder. -/
def extract_venue (w : Obj) : Except PyErr String := do
  let pl := pyOr (Obj.getO w "primary_location") (.dict [])
  let src := pyOr (← pl.getAttr "source") (.dict [])
  let name ← src.getAttr "display_name"
  if let .str s := name then
    if pyStrip s != "" then
      return pyStrip s
  let bol := pyOr (Obj.getO w "best_oa_location") (.dict [])
  let src2 := pyOr (← bol.getAttr "source") (.dict [])
  let name2 ← src2.getAttr "display_name"
  if let .str s := name2 then
    if pyStrip s != "" then
      return pyStrip s
  return "—"

/-- Scan for the HAL regex `\bhal\.science\b|\bhal\.\w+\b` (the second
alternative subsumes the first): some position starts `hal.` at a word
boundary and is followed by a word character.  The flag records whether
the previous character was a word character. -/
def halScanAux : Bool → List Char → Bool
  | _, [] => false
  | prevWord, c :: rest =>
      (!prevWord && ['h', 'a', 'l', '.'].isPrefixOf (c :: rest)
        && (match (c :: rest).drop 4 with
            | d :: _ => isWordChar d
            | [] => false))
      || halScanAux (isWordChar c) rest

/-- Case-insensitive search for the HAL hostname pattern. -/
def halMatch (s : String) : Bool := halScanAux false (pyLower s).data

/-- `try_find_hal_url` from the source: collect likely URL fields in a
fixed order and return the first truthy one matching the HAL pattern. -/
def try_find_hal_url (w : Obj) : Except PyErr (Option String) := do
  let ids := pyOr (Obj.getO w "ids") (.dict [])
  let v1 ← ids.getAttr "openalex"
  let v2 ← ids.getAttr "doi"
  let v3 ← ids.getAttr "pmid"
  let v4 ← ids.getAttr "pmcid"
  let v5 ← ids.getAttr "mag"
  let loc := pyOr (Obj.getO w "primary_location") (.dict [])
  let v6 ← loc.getAttr "landing_page_url"
  let v7 ← loc.getAttr "pdf_url"
  let hv := pyOr (Obj.getO w "host_venue") (.dict [])
  let v8 ← hv.getAttr "url"
  let candidates := [v1, v2, v3, v4, v5, v6, v7, v8].filterMap fun v =>
    match v with
    | .str s => Option.some s
    | _ => Option.none
  pure (candidates.find? fun u => u != "" && halMatch u)

/-- `extract_oa_status` from the source. -/
def extract_oa_status (w : Obj) : Except PyErr String := do
  let oa := pyOr (Obj.getO w "open_access") (.dict [])
  let s ← oa.getAttr "oa_status"
  if let .str t := s then
    if pyStrip t != "" then
      return pyLower (pyStrip t)
  return "unknown"

/-- `extract_is_oa` from the source. -/
def extract_is_oa (w : Obj) : Except PyErr Bool := do
  let oa := pyOr (Obj.getO w "open_access") (.dict [])
  let v ← oa.getAttr "is_oa"
  match v with
  | .bool b => pure b
  | _ => pure false

/-- Numeric view of a value (booleans count as 0/1), used by the
comparison model. -/
def pyNumQ : PyVal → Option Rat
  | .bool b => Option.some (if b then 1 else 0)
  | .int n => Option.some (n : Rat)
  | .float q => Option.some q
  | _ => Option.none

/-- Python `a < b` for the value kinds the pipeline can compare: numbers
with numbers, strings with strings; anything else raises `TypeError`. -/
def pyLt (a b : PyVal) : Except PyErr Bool :=
  match pyNumQ a, pyNumQ b with
  | Option.some x, Option.some y => .ok (decide (x < y))
  | _, _ =>
      match a, b with
      | .str s, .str t => .ok (decide (s < t))
      | _, _ => .error .typeError

/-- Stable insertion for the fallible descending sort: `x` moves past
exactly the elements whose key strictly exceeds its own. -/
def insertDescM (x : PyVal × PyVal) :
    List (PyVal × PyVal) → Except PyErr (List (PyVal × PyVal))
  | [] => .ok [x]
  | y :: ys => do
      if (← pyLt x.2 y.2) then
        let rest ← insertDescM x ys
        pure (y :: rest)
      else
        pure (x :: y :: ys)

/-- Stable descending sort of `(value, key)` pairs with Python comparison
on the keys (a model of `sorted(entries, key=..., reverse=True)` for a
fallible comparison). -/
def sortDescM : List (PyVal × PyVal) → Except PyErr (List (PyVal × PyVal))
  | [] => .ok []
  | x :: xs => do insertDescM x (← sortDescM xs)

/-- Key extraction pass of `sorted(entries, key=lambda x: x.get("score", 0))`:
the key of every element is computed, in list order, before sorting. -/
def keyedScores : List PyVal → Except PyErr (List (PyVal × PyVal))
  | [] => .ok []
  | t :: ts => do
      let s ← t.getAttrD "score" (.int 0)
      let rest ← keyedScores ts
      pure ((t, s) :: rest)

/-- Collecting pass shared by `extract_topics` and `extract_keywords`:
keep the stripped `display_name` of each entry when it is a non-blank
string. -/
def collectNames : List PyVal → Except PyErr (List String)
  | [] => .ok []
  | t :: ts => do
      let name ← (pyOr t (.dict [])).getAttr "display_name"
      let rest := collectNames ts
      match name with
      | .str s =>
          if pyStrip s != "" then do pure (pyStrip s :: (← rest)) else rest
      | _ => rest

/-- Shared body of `extract_topics` and `extract_keywords`: when the field
holds a list, sort its entries by score (descending, stable), keep the
first `top_k`, and collect their display names; otherwise return `[]`. -/
def extract_ranked (w : Obj) (field : String) (top_k : Nat) :
    Except PyErr (List String) := do
  let entries := pyOr (Obj.getO w field) (.list [])
  match entries with
  | .list ts => do
      let keyed ← keyedScores ts
      let sorted ← sortDescM keyed
      collectNames ((sorted.take top_k).map Prod.fst)
  | _ => pure []

/-- `extract_topics` from the source (top 3 by score). -/
def extract_topics (w : Obj) (top_k : Nat) : Except PyErr (List String) :=
  extract_ranked w "topics" top_k

/-- `extract_keywords` from the source (top 10 by score). -/
def extract_keywords (w : Obj) (top_k : Nat) : Except PyErr (List String) :=
  extract_ranked w "keywords" top_k

/-- Loop body of `extract_coauthors`: skip the entry whose id matches the
subject author (after stripping the OpenAlex URL prefix), collect the
remaining display names through `normalize_person_name`. -/
def coauthorsLoop : List PyVal → String → Except PyErr (List String)
  | [], _ => .ok []
  | a :: as, selfId => do
      let au := pyOr (← (pyOr a (.dict [])).getAttr "author") (.dict [])
      let aid ← au.getAttr "id"
      let rawName ← au.getAttr "display_name"
      let skip := match aid with
        | .str s => removeAll s "https://openalex.org/" == selfId
        | _ => false
      let rest ← coauthorsLoop as selfId
      if skip then pure rest
      else
        match rawName with
        | .str s =>
            if pyStrip s != "" then pure (normalize_person_name s :: rest)
            else pure rest
        | _ => pure rest

/-- `extract_coauthors` from the source. -/
def extract_coauthors (w : Obj) (self_author_id : String) :
    Except PyErr (List String) := do
  let auths := pyOr (Obj.getO w "authorships") (.list [])
  match auths with
  | .list as => coauthorsLoop as self_author_id
  | _ => pure []

/-- `_norm_doi` from the source: `None` for a falsy input, else strip,
lower-case, remove every occurrence of the DOI URL prefixes and of
`doi:`, and turn an empty result into `None`. -/
def norm_doi (doi : String) : Option String :=
  if doi == "" then Option.none
  else
    let d := removeAll (removeAll (removeAll (pyLower (pyStrip doi))
      "https://doi.org/") "http://doi.org/") "doi:"
    if d == "" then Option.none else Option.some d

/-- `_get_doi` from the source: normalize the top-level `doi` field when it
is a string, else the `ids.doi` entry when `ids` is a dict holding a
string. -/
def get_doi (w : Obj) : Option String :=
  match Obj.getO w "doi" with
  | .str s => norm_doi s
  | _ =>
      match pyOr (Obj.getO w "ids") (.dict []) with
      | .dict kvs =>
          match Obj.getO kvs "doi" with
          | .str s => norm_doi s
          | _ => Option.none
      | _ => Option.none

/-- The raw (pre-normalization) DOI string `_get_doi` would extract, used
to state key stability. -/
def raw_doi_of (w : Obj) : Option String :=
  match Obj.getO w "doi" with
  | .str s => Option.some s
  | _ =>
      match pyOr (Obj.getO w "ids") (.dict []) with
      | .dict kvs =>
          match Obj.getO kvs "doi" with
          | .str s => Option.some s
          | _ => Option.none
      | _ => Option.none

/-- Scan of the `locations` entries for a HAL OAI identifier. -/
def halIdScan : List PyVal → Except PyErr (Option String)
  | [] => .ok Option.none
  | loc :: rest => do
      let locId ← loc.getAttr "id"
      match locId with
      | .str s =>
          if pyStartsWith s "pmh:oai:HAL:" then pure (Option.some s)
          else halIdScan rest
      | _ => halIdScan rest

/-- `_get_hal_id` from the source: scan `locations`, then
`primary_location`, for an id starting `pmh:oai:HAL:`. -/
def get_hal_id (w : Obj) : Except PyErr (Option String) := do
  let locs ← pyIter (pyOr (Obj.getO w "locations") (.list []))
  match ← halIdScan locs with
  | Option.some h => pure (Option.some h)
  | Option.none =>
      let pl := pyOr (Obj.getO w "primary_location") (.dict [])
      let plId ← pl.getAttr "id"
      match plId with
      | .str s =>
          if pyStartsWith s "pmh:oai:HAL:" then pure (Option.some s)
          else pure Option.none
      | _ => pure Option.none

/-- Removal of a leading enumerator (regex `^\s*\d+\s*[\.\-:\)]\s*`):
when the pattern matches at the start, the whole match is removed. -/
def stripEnum (cs : List Char) : List Char :=
  let s1 := cs.dropWhile isWs
  if (s1.takeWhile Char.isDigit).isEmpty then cs
  else
    match (s1.dropWhile Char.isDigit).dropWhile isWs with
    | p :: rest =>
        if p == '.' || p == '-' || p == ':' || p == ')' then rest.dropWhile isWs
        else cs
    | [] => cs

/-- String part of `_norm_title`: lower-case, strip, drop a leading
enumerator, collapse whitespace runs, remove non-word non-space
characters, strip. -/
def norm_title_str (title : String) : String :=
  let t := pyStrip (pyLower title)
  let t2 := stripEnum t.data
  let t3 := collapseWsAux false t2
  pyStrip (String.mk (t3.filter fun c => isWordChar c || isWs c))

/-- `_norm_title` from the source on an arbitrary value: falsy inputs give
the empty string; a truthy non-string raises (`.lower()` on it). -/
def norm_title_py (v : PyVal) : Except PyErr String :=
  if !truthy v then .ok ""
  else
    match v with
    | .str s => .ok (norm_title_str s)
    | _ => .error .attributeError

/-- `_first_author` from the source. -/
def first_author (w : Obj) : Except PyErr String := do
  let auths := pyOr (Obj.getO w "authorships") (.list [])
  if !truthy auths then
    pure ""
  else do
    let elt ← pyIndex0 auths
    let a0 := pyOr (← elt.getAttr "author") (.dict [])
    let name := pyOr (← a0.getAttr "display_name") (.str "")
    pure (pyLower (pyStrip (pyStr name)))

/-- Identity key derived by `dedupe_works`: the `("doi", ...)`,
`("hal", ...)` and `("fuzzy", ...)` tuples. -/
inductive WKey where
  | doi (s : String)
  | hal (s : String)
  | fuzzy (s : String)
deriving DecidableEq, Repr

/-- The identity-key derivation inlined in `dedupe_works`: DOI first, then
HAL id, then the fuzzy `title|year|first-author` key. -/
def derive_key (w : Obj) : Except PyErr WKey := do
  match get_doi w with
  | Option.some d => pure (.doi d)
  | Option.none =>
      match ← get_hal_id w with
      | Option.some h => pure (.hal h)
      | Option.none => do
          let t ← norm_title_py (pyOr (Obj.getO w "title") (Obj.getO w "display_name"))
          let fa ← first_author w
          pure (.fuzzy (t ++ "|" ++ pyStr (Obj.getO w "publication_year") ++ "|" ++ fa))

/-- `dedupe_works.score` from the source: the composite ranking tuple
`(has_doi, cited_by_count, publisher_bonus)`, higher better. -/
def score (w : Obj) : Except PyErr (Int × Int × Int) := do
  let has_doi : Int := if (get_doi w).isSome then 1 else 0
  let cites ← pyInt (pyOr (Obj.getO w "cited_by_count") (.int 0))
  let loc := pyOr (Obj.getO w "best_oa_location")
    (pyOr (Obj.getO w "primary_location") (.dict []))
  let src := match loc with
    | .dict kvs => pyOr (Obj.getO kvs "source") (.dict [])
    | _ => .dict []
  let ty ← src.getAttr "type"
  let src_type := pyLower (pyStr (pyOr ty (.str "")))
  let is_repo : Int := if src_type == "repository" then 1 else 0
  pure (has_doi, cites, 1 - is_repo)

/-- Lexicographic greater-or-equal on score triples (descending sort
order of `sorted(..., reverse=True)` on Python tuples). -/
def lexGe3 (a b : Int × Int × Int) : Bool :=
  decide (b.1 < a.1 ∨ (a.1 = b.1 ∧ (b.2.1 < a.2.1 ∨ (a.2.1 = b.2.1 ∧ b.2.2 ≤ a.2.2))))

/-- Stable insertion: `x` is placed before the first element `y` with
`le x y`; elements `x` ties with stay behind it only when they were
earlier in the original list, which is how CPython's stable sort behaves. -/
def insertStable {α : Type} (le : α → α → Bool) (x : α) : List α → List α
  | [] => [x]
  | y :: ys => if le x y then x :: y :: ys else y :: insertStable le x ys

/-- Stable sort by `le` (model of CPython `sorted`, which is stable also
under `reverse=True`). -/
def sortStable {α : Type} (le : α → α → Bool) : List α → List α
  | [] => []
  | x :: xs => insertStable le x (sortStable le xs)

/-- `buckets.setdefault(key, []).append(w)` on the insertion-ordered
bucket list. -/
def addToBuckets : List (WKey × List Obj) → WKey → Obj → List (WKey × List Obj)
  | [], k, w => [(k, [w])]
  | (k0, g) :: rest, k, w =>
      if k0 == k then (k0, g ++ [w]) :: rest
      else (k0, g) :: addToBuckets rest k w

/-- The grouping loop of `dedupe_works`: derive each record's key in input
order and append the record to its bucket. -/
def bucketsAux : List (WKey × List Obj) → List Obj → Except PyErr (List (WKey × List Obj))
  | acc, [] => .ok acc
  | acc, w :: ws =>
      match derive_key w with
      | .error e => .error e
      | .ok k => bucketsAux (addToBuckets acc k w) ws

/-- The identity-key grouping of `dedupe_works`. -/
def bucketsOf (ws : List Obj) : Except PyErr (List (WKey × List Obj)) :=
  bucketsAux [] ws

/-- Key-decoration pass of `sorted(group, key=score, ...)`: `score` runs
once per element, in list order, before any comparison. -/
def scoreAll : List Obj → Except PyErr (List (Obj × (Int × Int × Int)))
  | [] => .ok []
  | w :: ws => do
      let s ← score w
      let rest ← scoreAll ws
      pure ((w, s) :: rest)

/-- Winner selection within one identity group, as in `dedupe_works`: a
singleton group wins automatically; otherwise the group is stably sorted
by score, descending, and the first element is taken. -/
def pickFromGroup : List Obj → Except PyErr Obj
  | [w] => .ok w
  | g => do
      let scored ← scoreAll g
      match sortStable (fun a b => lexGe3 a.2 b.2) scored with
      | [] => .error .indexError
      | p :: _ => .ok p.1

/-- The output loop of `dedupe_works`: one winner per bucket, in bucket
insertion order. -/
def winnersOf : List (WKey × List Obj) → Except PyErr (List Obj)
  | [] => .ok []
  | kg :: rest => do
      let w ← pickFromGroup kg.2
      let ws ← winnersOf rest
      pure (w :: ws)

/-- `dedupe_works` from the source. -/
def dedupe_works (ws : List Obj) : Except PyErr (List Obj) := do
  let bs ← bucketsOf ws
  winnersOf bs

/-- `normalize_work` from the source; the fields are computed in the
source's evaluation order. -/
def normalize_work (w : Obj) (self_author_id : String) : Except PyErr Obj := do
  let title0 := pyOr (Obj.getO w "title") (.str "")
  let title1 ← match title0 with
    | .str s => pure (pyStrip s)
    | _ => Except.error PyErr.attributeError
  let title := if title1 == "" then "Untitled" else title1
  let year := safe_int (Obj.getO w "publication_year")
  let cites := (safe_int (Obj.getO w "cited_by_count")).getD 0
  let ids := pyOr (Obj.getO w "ids") (.dict [])
  let doiRaw ← if truthy (Obj.getO w "doi") then pure (Obj.getO w "doi")
    else ids.getAttr "doi"
  let doi : PyVal := match doiRaw with
    | .str s => .str (removeAll (pyStrip s) "https://doi.org/")
    | _ => .none
  let openalexId : PyVal := match Obj.getO w "id" with
    | .str s => .str (removeAll s "https://openalex.org/")
    | _ => .none
  let venue ← extract_venue w
  let url ← pick_best_url w
  let hal ← try_find_hal_url w
  let ty0 := pyOr (Obj.getO w "type") (pyOr (Obj.getO w "type_crossref") (.str ""))
  let ty1 ← match ty0 with
    | .str s => pure (pyStrip s)
    | _ => Except.error PyErr.attributeError
  let tyStr := if ty1 == "" then "—" else ty1
  let isOa ← extract_is_oa w
  let oaStatus ← extract_oa_status w
  let fwci : PyVal := match safe_float (Obj.getO w "fwci") with
    | Option.some q => .float q
    | Option.none => .none
  let pct ← (pyOr (Obj.getO w "citation_normalized_percentile") (.dict [])).getAttr "value"
  let topics ← extract_topics w 3
  let keywords ← extract_keywords w 10
  let coauthors ← extract_coauthors w self_author_id
  pure [("id", openalexId), ("title", .str title),
        ("year", match year with | Option.some y => .int y | Option.none => .none),
        ("venue", .str venue), ("citations", .int cites), ("doi", doi),
        ("url", .str url),
        ("hal_url", match hal with | Option.some u => .str u | Option.none => .none),
        ("type", .str tyStr), ("is_oa", .bool isOa), ("oa_status", .str oaStatus),
        ("fwci", fwci), ("citation_norm_percentile", pct),
        ("topics", .list (topics.map PyVal.str)),
        ("keywords", .list (keywords.map PyVal.str)),
        ("coauthors", .list (coauthors.map PyVal.str)),
        ("source", .str "OpenAlex")]

/-- Python `isinstance(y, int)` (booleans included, as `bool` subclasses
`int`) together with the integer value. -/
def pyAsInt : PyVal → Option Int
  | .int n => Option.some n
  | .bool b => Option.some (if b then 1 else 0)
  | _ => Option.none

/-- `by_year[y] = by_year.get(y, 0) + c` on the insertion-ordered map. -/
def bumpYear : List (Int × Int) → Int → Int → List (Int × Int)
  | [], y, c => [(y, c)]
  | (y0, t) :: rest, y, c =>
      if y0 == y then (y0, t + c) :: rest
      else (y0, t) :: bumpYear rest y c

/-- The accumulation loop of `build_citations_by_year`. -/
def byYearAux : List (Int × Int) → List Obj → Except PyErr (List (Int × Int))
  | m, [] => .ok m
  | m, p :: ps =>
      match pyAsInt (Obj.getO p "year") with
      | Option.some y =>
          match pyInt (pyOr (Obj.getO p "citations") (.int 0)) with
          | .error e => .error e
          | .ok c => byYearAux (bumpYear m y c) ps
      | Option.none => byYearAux m ps

/-- `build_citations_by_year` from the source: accumulate per-year sums,
then emit `{year, citations}` objects for the sorted keys. -/
def build_citations_by_year (papers : List Obj) : Except PyErr (List Obj) := do
  let m ← byYearAux [] papers
  let ks := sortStable (fun a b : Int => decide (a ≤ b)) (m.map Prod.fst)
  pure (ks.map fun y =>
    [("year", PyVal.int y), ("citations", PyVal.int ((List.lookup y m).getD 0))])

/-- `sum(int(p.get("citations") or 0) for p in papers)` from `main`. -/
def sumCitations : List Obj → Except PyErr Int
  | [] => .ok 0
  | p :: ps => do
      let c ← pyInt (pyOr (Obj.getO p "citations") (.int 0))
      let rest ← sumCitations ps
      pure (c + rest)

/-- Integer value of one component of the `main` sort key
`(p.get("year") or 0, p.get("citations") or 0)`.  On every record
`normalize_work` produces these components are integers; other value
kinds (never produced there) default to 0. -/
def pyKeyInt (v : PyVal) : Int :=
  match pyOr v (.int 0) with
  | .int n => n
  | _ => 0

/-- The sort key of `main`: newest first, then citations descending. -/
def mainSortKey (p : Obj) : Int × Int :=
  (pyKeyInt (Obj.getO p "year"), pyKeyInt (Obj.getO p "citations"))

/-- Lexicographic greater-or-equal on `main` sort keys. -/
def lexGe2 (a b : Int × Int) : Bool :=
  decide (b.1 < a.1 ∨ (a.1 = b.1 ∧ b.2 ≤ a.2))

/-- The list comprehension `[normalize_work(w, ...) for w in works]`. -/
def normalizeAll : List Obj → String → Except PyErr (List Obj)
  | [], _ => .ok []
  | w :: ws, selfId => do
      let p ← normalize_work w selfId
      let rest ← normalizeAll ws selfId
      pure (p :: rest)

/-- The report `main` assembles (the `updated_at` timestamp, produced by
the excluded I/O layer, is omitted). -/
structure Report where
  author_openalex_id : String
  papers_tracked : Nat
  total_citations : Int
  citations_by_year : List Obj
  works : List Obj

/-- The computational core of `main`: normalize the author id, dedupe the
fetched records, normalize each survivor, sort newest-first, and build
the aggregates.  The network fetch that produces `fetched` and the JSON
writing are outside the modelled core. -/
def runPipeline (raw_author_id : String) (fetched : List Obj) : Except PyErr Report := do
  let author_id ← normalize_author_id raw_author_id
  let works ← dedupe_works fetched
  let papers0 ← normalizeAll works author_id
  let papers := sortStable (fun a b => lexGe2 (mainSortKey a) (mainSortKey b)) papers0
  let total ← sumCitations papers
  let byYear ← build_citations_by_year papers
  pure { author_openalex_id := author_id, papers_tracked := papers.length,
         total_citations := total, citations_by_year := byYear, works := papers }

/-! ### Generic facts about the stable sort model -/

theorem exBind_ok {α β : Type} (a : α) (f : α → Except PyErr β) :
    (Except.ok a >>= f) = f a := rfl

theorem exBind_err {α β : Type} (e : PyErr) (f : α → Except PyErr β) :
    ((Except.error e : Except PyErr α) >>= f) = .error e := rfl

theorem insertStable_perm {α : Type} (le : α → α → Bool) (x : α) (l : List α) :
    List.Perm (insertStable le x l) (x :: l) := by
  induction l with
  | nil => simp [insertStable]
  | cons y ys ih =>
      by_cases h : le x y
      · simp [insertStable, h]
      · simp only [insertStable, h, if_neg, Bool.false_eq_true, not_false_iff]
        exact (ih.cons y).trans (List.Perm.swap x y ys)

theorem sortStable_perm {α : Type} (le : α → α → Bool) (l : List α) :
    List.Perm (sortStable le l) l := by
  induction l with
  | nil => simp [sortStable]
  | cons x xs ih =>
      exact (insertStable_perm le x (sortStable le xs)).trans (ih.cons x)

theorem sortStable_eq_nil {α : Type} {le : α → α → Bool} {l : List α}
    (h : sortStable le l = []) : l = [] := by
  have hp := sortStable_perm le l
  rw [h] at hp
  exact hp.symm.eq_nil

theorem sortStable_head {α : Type} {le : α → α → Bool}
    (htot : ∀ a b, le a b = true ∨ le b a = true)
    (htrans : ∀ a b c, le a b = true → le b c = true → le a c = true) :
    ∀ (l : List α) (h : α) (t : List α), sortStable le l = h :: t →
      (∃ pre post, l = pre ++ h :: post ∧ ∀ v ∈ pre, le v h = false) ∧
      ∀ v ∈ l, le h v = true := by
  intro l
  induction l with
  | nil => intro h t hst; simp [sortStable] at hst
  | cons x xs ih =>
      intro h t hst
      simp only [sortStable] at hst
      cases hs : sortStable le xs with
      | nil =>
          have hxs : xs = [] := sortStable_eq_nil hs
          subst hxs
          rw [hs] at hst
          simp only [insertStable] at hst
          injection hst with h1 h2
          subst h1
          constructor
          · exact ⟨[], [], rfl, by simp⟩
          · intro v hv
            simp only [List.mem_singleton] at hv
            subst hv
            rcases htot v v with hvv | hvv <;> exact hvv
      | cons m mt =>
          rw [hs] at hst
          by_cases hxm : le x m
          · rw [insertStable, if_pos hxm] at hst
            injection hst with h1 h2
            subst h1
            have ihm := ih m mt hs
            constructor
            · exact ⟨[], xs, rfl, by simp⟩
            · intro v hv
              rcases List.mem_cons.mp hv with rfl | hv
              · rcases htot v v with hvv | hvv <;> exact hvv
              · exact htrans _ m v hxm (ihm.2 v hv)
          · rw [insertStable, if_neg hxm] at hst
            injection hst with h1 h2
            subst h1
            have ihm := ih m mt hs
            obtain ⟨⟨pre0, post0, hdec, hpre⟩, hmax⟩ := ihm
            constructor
            · refine ⟨x :: pre0, post0, by rw [hdec]; rfl, ?_⟩
              intro v hv
              rcases List.mem_cons.mp hv with rfl | hv
              · exact eq_false_of_ne_true hxm
              · exact hpre v hv
            · intro v hv
              rcases List.mem_cons.mp hv with rfl | hv
              · rcases htot v m with h1 | h1
                · exact absurd h1 hxm
                · exact h1
              · exact hmax v hv

theorem insertStable_pairwise {α : Type} {le : α → α → Bool}
    (htot : ∀ a b, le a b = true ∨ le b a = true)
    (htrans : ∀ a b c, le a b = true → le b c = true → le a c = true)
    (x : α) {l : List α} (hl : l.Pairwise (fun a b => le a b = true)) :
    (insertStable le x l).Pairwise (fun a b => le a b = true) := by
  induction l with
  | nil => simp [insertStable]
  | cons y ys ih =>
      rcases List.pairwise_cons.mp hl with ⟨hy, hys⟩
      by_cases h : le x y
      · simp only [insertStable, h, if_pos]
        refine List.pairwise_cons.mpr ⟨?_, hl⟩
        intro z hz
        rcases List.mem_cons.mp hz with rfl | hz
        · exact h
        · exact htrans x y z h (hy z hz)
      · simp only [insertStable, h, if_neg, Bool.false_eq_true, not_false_iff]
        refine List.pairwise_cons.mpr ⟨?_, ih hys⟩
        intro z hz
        have hz' := (insertStable_perm le x ys).mem_iff.mp hz
        rcases List.mem_cons.mp hz' with rfl | hz'
        · rcases htot z y with h1 | h1
          · exact absurd h1 h
          · exact h1
        · exact hy z hz'

theorem sortStable_pairwise {α : Type} {le : α → α → Bool}
    (htot : ∀ a b, le a b = true ∨ le b a = true)
    (htrans : ∀ a b c, le a b = true → le b c = true → le a c = true)
    (l : List α) :
    (sortStable le l).Pairwise (fun a b => le a b = true) := by
  induction l with
  | nil => simp [sortStable]
  | cons x xs ih => exact insertStable_pairwise htot htrans x ih

theorem lexGe3_total (a b : Int × Int × Int) :
    lexGe3 a b = true ∨ lexGe3 b a = true := by
  simp only [lexGe3, decide_eq_true_eq]
  omega

theorem lexGe3_trans (a b c : Int × Int × Int)
    (h1 : lexGe3 a b = true) (h2 : lexGe3 b c = true) : lexGe3 a c = true := by
  simp only [lexGe3, decide_eq_true_eq] at h1 h2 ⊢
  omega

theorem lexGe2_total (a b : Int × Int) : lexGe2 a b = true ∨ lexGe2 b a = true := by
  simp only [lexGe2, decide_eq_true_eq]
  omega

theorem lexGe2_trans (a b c : Int × Int)
    (h1 : lexGe2 a b = true) (h2 : lexGe2 b c = true) : lexGe2 a c = true := by
  simp only [lexGe2, decide_eq_true_eq] at h1 h2 ⊢
  omega

theorem intLe_total (a b : Int) : decide (a ≤ b) = true ∨ decide (b ≤ a) = true := by
  simp only [decide_eq_true_eq]
  omega

theorem intLe_trans (a b c : Int)
    (h1 : decide (a ≤ b) = true) (h2 : decide (b ≤ c) = true) :
    decide (a ≤ c) = true := by
  simp only [decide_eq_true_eq] at h1 h2 ⊢
  omega

/-! ### Structure of the deduplication -/

theorem exPure_ok {α : Type} {a b : α} (h : (pure a : Except PyErr α) = .ok b) :
    a = b := Except.ok.inj h

theorem scoreAll_spec : ∀ (g : List Obj) (sc : List (Obj × (Int × Int × Int))),
    scoreAll g = .ok sc →
    sc.map Prod.fst = g ∧ (∀ p ∈ sc, score p.1 = .ok p.2) ∧
    ∀ v ∈ g, ∃ s, (v, s) ∈ sc := by
  intro g
  induction g with
  | nil =>
      intro sc h
      simp only [scoreAll] at h
      have := Except.ok.inj h
      subst this
      simp
  | cons w ws ih =>
      intro sc h
      simp only [scoreAll] at h
      cases hw : score w with
      | error e => rw [hw, exBind_err] at h; exact Except.noConfusion h
      | ok s =>
          rw [hw, exBind_ok] at h
          cases hr : scoreAll ws with
          | error e => rw [hr, exBind_err] at h; exact Except.noConfusion h
          | ok rest =>
              rw [hr, exBind_ok] at h
              have := exPure_ok h
              subst this
              obtain ⟨ih1, ih2, ih3⟩ := ih rest hr
              refine ⟨by simp [ih1], ?_, ?_⟩
              · intro p hp
                rcases List.mem_cons.mp hp with rfl | hp
                · exact hw
                · exact ih2 p hp
              · intro v hv
                rcases List.mem_cons.mp hv with rfl | hv
                · exact ⟨s, List.mem_cons_self _ _⟩
                · obtain ⟨s', hs'⟩ := ih3 v hv
                  exact ⟨s', List.mem_cons_of_mem _ hs'⟩

theorem pickFromGroup_mem : ∀ (g : List Obj) (w : Obj),
    pickFromGroup g = .ok w → w ∈ g := by
  intro g w h
  match g with
  | [] => exact Except.noConfusion h
  | [a] =>
      simp only [pickFromGroup] at h
      have := Except.ok.inj h
      subst this
      exact List.mem_singleton_self a
  | a :: b :: rest =>
      simp only [pickFromGroup] at h
      cases hsc : scoreAll (a :: b :: rest) with
      | error e => rw [hsc, exBind_err] at h; exact Except.noConfusion h
      | ok sc =>
          rw [hsc, exBind_ok] at h
          cases hss : sortStable (fun x y => lexGe3 x.2 y.2) sc with
          | nil => rw [hss] at h; exact Except.noConfusion h
          | cons p pt =>
              rw [hss] at h
              have hw : p.1 = w := Except.ok.inj h
              subst hw
              have hp : p ∈ sc := by
                have hmem : p ∈ sortStable (fun x y => lexGe3 x.2 y.2) sc := by
                  rw [hss]; exact List.mem_cons_self _ _
                exact (sortStable_perm _ sc).mem_iff.mp hmem
              obtain ⟨hfst, -, -⟩ := scoreAll_spec _ _ hsc
              rw [← hfst]
              exact List.mem_map_of_mem Prod.fst hp

/-- Total size of all groups in a bucket list. -/
def groupSizes (bs : List (WKey × List Obj)) : Nat :=
  (bs.map fun kg => kg.2.length).sum

theorem addToBuckets_fst (acc : List (WKey × List Obj)) (k : WKey) (w : Obj) :
    (addToBuckets acc k w).map Prod.fst =
      if k ∈ acc.map Prod.fst then acc.map Prod.fst
      else acc.map Prod.fst ++ [k] := by
  induction acc with
  | nil => simp [addToBuckets]
  | cons kg rest ih =>
      obtain ⟨k0, g⟩ := kg
      by_cases h : k0 = k
      · subst h
        simp [addToBuckets]
      · have hne : (k0 == k) = false := by simp [h]
        by_cases hm : k ∈ rest.map Prod.fst
        · simp [addToBuckets, hne, ih, hm, h, Ne.symm h]
        · simp [addToBuckets, hne, ih, hm, h, Ne.symm h]

theorem addToBuckets_new (acc : List (WKey × List Obj)) (k : WKey) (w : Obj)
    (h : k ∉ acc.map Prod.fst) :
    addToBuckets acc k w = acc ++ [(k, [w])] := by
  induction acc with
  | nil => simp [addToBuckets]
  | cons kg rest ih =>
      obtain ⟨k0, g⟩ := kg
      simp only [List.map_cons, List.mem_cons, not_or] at h
      have hne : (k0 == k) = false := by simp; exact fun hq => h.1 hq.symm
      simp [addToBuckets, hne, ih h.2]

theorem addToBuckets_keyed {P : Obj → WKey → Prop}
    (acc : List (WKey × List Obj)) (k : WKey) (w : Obj)
    (hacc : ∀ kg ∈ acc, ∀ v ∈ kg.2, P v kg.1) (hw : P w k) :
    ∀ kg ∈ addToBuckets acc k w, ∀ v ∈ kg.2, P v kg.1 := by
  induction acc with
  | nil =>
      intro kg hkg v hv
      simp only [addToBuckets, List.mem_singleton] at hkg
      subst hkg
      simp only [List.mem_singleton] at hv
      subst hv
      exact hw
  | cons kg0 rest ih =>
      obtain ⟨k0, g⟩ := kg0
      intro kg hkg v hv
      by_cases h : k0 == k
      · simp only [addToBuckets, h, if_pos] at hkg
        rcases List.mem_cons.mp hkg with rfl | hkg
        · rcases List.mem_append.mp hv with hv | hv
          · exact hacc (k0, g) (List.mem_cons_self _ _) v hv
          · simp only [List.mem_singleton] at hv
            subst hv
            have : k0 = k := by simpa using h
            subst this
            exact hw
        · exact hacc kg (List.mem_cons_of_mem _ hkg) v hv
      · simp only [addToBuckets, h] at hkg
        simp only [Bool.false_eq_true, if_false] at hkg
        rcases List.mem_cons.mp hkg with rfl | hkg
        · exact hacc (k0, g) (List.mem_cons_self _ _) v hv
        · exact ih (fun kg h1 v h2 => hacc kg (List.mem_cons_of_mem _ h1) v h2) kg hkg v hv

theorem addToBuckets_nonempty (acc : List (WKey × List Obj)) (k : WKey) (w : Obj)
    (hacc : ∀ kg ∈ acc, kg.2 ≠ []) :
    ∀ kg ∈ addToBuckets acc k w, kg.2 ≠ [] := by
  induction acc with
  | nil =>
      intro kg hkg
      simp only [addToBuckets, List.mem_singleton] at hkg
      subst hkg
      simp
  | cons kg0 rest ih =>
      obtain ⟨k0, g⟩ := kg0
      intro kg hkg
      by_cases h : k0 == k
      · simp only [addToBuckets, h, if_pos] at hkg
        rcases List.mem_cons.mp hkg with rfl | hkg
        · simp
        · exact hacc kg (List.mem_cons_of_mem _ hkg)
      · simp only [addToBuckets, h] at hkg
        simp only [Bool.false_eq_true, if_false] at hkg
        rcases List.mem_cons.mp hkg with rfl | hkg
        · exact hacc (k0, g) (List.mem_cons_self _ _)
        · exact ih (fun kg h1 => hacc kg (List.mem_cons_of_mem _ h1)) kg hkg

theorem addToBuckets_nodupKeys (acc : List (WKey × List Obj)) (k : WKey) (w : Obj)
    (h : (acc.map Prod.fst).Nodup) :
    ((addToBuckets acc k w).map Prod.fst).Nodup := by
  rw [addToBuckets_fst]
  by_cases hm : k ∈ acc.map Prod.fst
  · simpa [hm] using h
  · simp only [hm, if_false]
    simp [List.nodup_append, h, hm]

theorem addToBuckets_mem_fwd (acc : List (WKey × List Obj)) (k : WKey) (w : Obj) :
    ∀ v : Obj, (∃ kg ∈ addToBuckets acc k w, v ∈ kg.2) →
      (∃ kg ∈ acc, v ∈ kg.2) ∨ v = w := by
  induction acc with
  | nil =>
      intro v ⟨kg, hkg, hv⟩
      simp only [addToBuckets, List.mem_singleton] at hkg
      subst hkg
      simp only [List.mem_singleton] at hv
      exact Or.inr hv
  | cons kg0 rest ih =>
      obtain ⟨k0, g⟩ := kg0
      intro v ⟨kg, hkg, hv⟩
      by_cases h : k0 == k
      · simp only [addToBuckets, h, if_pos] at hkg
        rcases List.mem_cons.mp hkg with rfl | hkg
        · rcases List.mem_append.mp hv with hv | hv
          · exact Or.inl ⟨(k0, g), List.mem_cons_self _ _, hv⟩
          · simp only [List.mem_singleton] at hv
            exact Or.inr hv
        · exact Or.inl ⟨kg, List.mem_cons_of_mem _ hkg, hv⟩
      · simp only [addToBuckets, h] at hkg
        simp only [Bool.false_eq_true, if_false] at hkg
        rcases List.mem_cons.mp hkg with rfl | hkg
        · exact Or.inl ⟨(k0, g), List.mem_cons_self _ _, hv⟩
        · rcases ih v ⟨kg, hkg, hv⟩ with ⟨kg', h1, h2⟩ | hvw
          · exact Or.inl ⟨kg', List.mem_cons_of_mem _ h1, h2⟩
          · exact Or.inr hvw

theorem addToBuckets_sizes (acc : List (WKey × List Obj)) (k : WKey) (w : Obj) :
    groupSizes (addToBuckets acc k w) = groupSizes acc + 1 := by
  induction acc with
  | nil => simp [addToBuckets, groupSizes]
  | cons kg0 rest ih =>
      obtain ⟨k0, g⟩ := kg0
      by_cases h : k0 == k
      · simp [addToBuckets, h, groupSizes]
        omega
      · simp only [addToBuckets, h] at *
        simp only [Bool.false_eq_true, if_false]
        simp [groupSizes] at ih ⊢
        omega

theorem bucketsAux_inv :
    ∀ (l : List Obj) (acc bs : List (WKey × List Obj)),
      bucketsAux acc l = .ok bs →
      (∀ kg ∈ acc, ∀ v ∈ kg.2, derive_key v = .ok kg.1) →
      (∀ kg ∈ acc, kg.2 ≠ []) →
      (acc.map Prod.fst).Nodup →
      (∀ kg ∈ bs, ∀ v ∈ kg.2, derive_key v = .ok kg.1) ∧
      (∀ kg ∈ bs, kg.2 ≠ []) ∧
      (bs.map Prod.fst).Nodup ∧
      (∀ v : Obj, (∃ kg ∈ bs, v ∈ kg.2) → (∃ kg ∈ acc, v ∈ kg.2) ∨ v ∈ l) ∧
      groupSizes bs = groupSizes acc + l.length := by
  intro l
  induction l with
  | nil =>
      intro acc bs h h1 h2 h3
      simp only [bucketsAux] at h
      have := Except.ok.inj h
      subst this
      exact ⟨h1, h2, h3, fun v hv => Or.inl hv, by simp⟩
  | cons w ws ih =>
      intro acc bs h h1 h2 h3
      cases hk : derive_key w with
      | error e =>
          simp only [bucketsAux, hk] at h
          exact Except.noConfusion h
      | ok k =>
          simp only [bucketsAux, hk] at h
          obtain ⟨g1, g2, g3, g4, g5⟩ :=
            ih (addToBuckets acc k w) bs h
              (@addToBuckets_keyed (fun v k' => derive_key v = Except.ok k') acc k w h1 hk)
              (addToBuckets_nonempty acc k w h2)
              (addToBuckets_nodupKeys acc k w h3)
          refine ⟨g1, g2, g3, ?_, ?_⟩
          · intro v hv
            rcases g4 v hv with hin | hin
            · rcases addToBuckets_mem_fwd acc k w v hin with h' | rfl
              · exact Or.inl h'
              · exact Or.inr (List.mem_cons_self _ _)
            · exact Or.inr (List.mem_cons_of_mem _ hin)
          · rw [g5, addToBuckets_sizes]
            simp only [List.length_cons]
            omega

theorem winnersOf_spec : ∀ (bs : List (WKey × List Obj)) (out : List Obj),
    winnersOf bs = .ok out →
    List.Forall₂ (fun kg (w : Obj) => pickFromGroup kg.2 = .ok w) bs out := by
  intro bs
  induction bs with
  | nil =>
      intro out h
      simp only [winnersOf] at h
      have := Except.ok.inj h
      subst this
      exact List.Forall₂.nil
  | cons kg rest ih =>
      intro out h
      simp only [winnersOf] at h
      cases hp : pickFromGroup kg.2 with
      | error e => rw [hp, exBind_err] at h; exact Except.noConfusion h
      | ok w =>
          rw [hp, exBind_ok] at h
          cases hr : winnersOf rest with
          | error e => rw [hr, exBind_err] at h; exact Except.noConfusion h
          | ok ws' =>
              rw [hr, exBind_ok] at h
              have := exPure_ok h
              subst this
              exact List.Forall₂.cons hp (ih ws' hr)

theorem forall2_mem_right {α β : Type} {R : α → β → Prop} :
    ∀ {l1 : List α} {l2 : List β}, List.Forall₂ R l1 l2 →
      ∀ b ∈ l2, ∃ a ∈ l1, R a b := by
  intro l1 l2 h
  induction h with
  | nil => intro b hb; exact absurd hb (List.not_mem_nil b)
  | @cons a b l1' l2' hR hrest ih =>
      intro b' hb'
      rcases List.mem_cons.mp hb' with rfl | hb'
      · exact ⟨a, List.mem_cons_self _ _, hR⟩
      · obtain ⟨a', ha', hr'⟩ := ih b' hb'
        exact ⟨a', List.mem_cons_of_mem _ ha', hr'⟩

/-- The key of every record of a list, in order (proof infrastructure:
`derive_key` mapped over a list). -/
def deriveAll : List Obj → Except PyErr (List WKey)
  | [] => .ok []
  | w :: ws => do
      let k ← derive_key w
      let rest ← deriveAll ws
      pure (k :: rest)

theorem winners_keys : ∀ (bs : List (WKey × List Obj)) (out : List Obj),
    winnersOf bs = .ok out →
    (∀ kg ∈ bs, ∀ v ∈ kg.2, derive_key v = .ok kg.1) →
    deriveAll out = .ok (bs.map Prod.fst) := by
  intro bs
  induction bs with
  | nil =>
      intro out h _
      simp only [winnersOf] at h
      have := Except.ok.inj h
      subst this
      simp [deriveAll]
  | cons kg rest ih =>
      intro out h hkeyed
      simp only [winnersOf] at h
      cases hp : pickFromGroup kg.2 with
      | error e => rw [hp, exBind_err] at h; exact Except.noConfusion h
      | ok w =>
          rw [hp, exBind_ok] at h
          cases hr : winnersOf rest with
          | error e => rw [hr, exBind_err] at h; exact Except.noConfusion h
          | ok ws' =>
              rw [hr, exBind_ok] at h
              have := exPure_ok h
              subst this
              have hkw : derive_key w = .ok kg.1 :=
                hkeyed kg (List.mem_cons_self _ _) w (pickFromGroup_mem kg.2 w hp)
              have hrest : deriveAll ws' = .ok (rest.map Prod.fst) :=
                ih ws' hr (fun kg' h1 v h2 => hkeyed kg' (List.mem_cons_of_mem _ h1) v h2)
              simp only [deriveAll, hkw, hrest, exBind_ok]
              rfl

theorem deriveAll_mem : ∀ (l : List Obj) (ks : List WKey),
    deriveAll l = .ok ks → ∀ v ∈ l, ∃ k ∈ ks, derive_key v = .ok k := by
  intro l
  induction l with
  | nil => intro ks _ v hv; exact absurd hv (List.not_mem_nil v)
  | cons w ws ih =>
      intro ks h v hv
      simp only [deriveAll] at h
      cases hk : derive_key w with
      | error e => rw [hk, exBind_err] at h; exact Except.noConfusion h
      | ok k =>
          rw [hk, exBind_ok] at h
          cases hr : deriveAll ws with
          | error e => rw [hr, exBind_err] at h; exact Except.noConfusion h
          | ok kr =>
              rw [hr, exBind_ok] at h
              have := exPure_ok h
              subst this
              rcases List.mem_cons.mp hv with rfl | hv
              · exact ⟨k, List.mem_cons_self _ _, hk⟩
              · obtain ⟨k', h1, h2⟩ := ih kr hr v hv
                exact ⟨k', List.mem_cons_of_mem _ h1, h2⟩

theorem deriveAll_pairwise : ∀ (l : List Obj) (ks : List WKey),
    deriveAll l = .ok ks → ks.Nodup →
    l.Pairwise (fun a b => derive_key a ≠ derive_key b) := by
  intro l
  induction l with
  | nil => intro ks _ _; exact List.Pairwise.nil
  | cons w ws ih =>
      intro ks h hnd
      simp only [deriveAll] at h
      cases hk : derive_key w with
      | error e => rw [hk, exBind_err] at h; exact Except.noConfusion h
      | ok k =>
          rw [hk, exBind_ok] at h
          cases hr : deriveAll ws with
          | error e => rw [hr, exBind_err] at h; exact Except.noConfusion h
          | ok kr =>
              rw [hr, exBind_ok] at h
              have := exPure_ok h
              subst this
              obtain ⟨hknotin, hkrnd⟩ := List.nodup_cons.mp hnd
              refine List.Pairwise.cons ?_ (ih kr hr hkrnd)
              intro v hv
              obtain ⟨kv, hkv1, hkv2⟩ := deriveAll_mem ws kr hr v hv
              rw [hk, hkv2]
              intro heq
              have : k = kv := Except.ok.inj heq
              subst this
              exact hknotin hkv1

theorem bucketsAux_singles :
    ∀ (l : List Obj) (acc : List (WKey × List Obj)) (ks : List WKey),
      deriveAll l = .ok ks → ks.Nodup →
      (∀ k ∈ ks, k ∉ acc.map Prod.fst) →
      ∃ tail, bucketsAux acc l = .ok (acc ++ tail) ∧
        tail.map Prod.snd = l.map (fun w => [w]) := by
  intro l
  induction l with
  | nil =>
      intro acc ks _ _ _
      exact ⟨[], by simp [bucketsAux], by simp⟩
  | cons w ws ih =>
      intro acc ks h hnd hout
      simp only [deriveAll] at h
      cases hk : derive_key w with
      | error e => rw [hk, exBind_err] at h; exact Except.noConfusion h
      | ok k =>
          rw [hk, exBind_ok] at h
          cases hr : deriveAll ws with
          | error e => rw [hr, exBind_err] at h; exact Except.noConfusion h
          | ok kr =>
              rw [hr, exBind_ok] at h
              have := exPure_ok h
              subst this
              obtain ⟨hknotin, hkrnd⟩ := List.nodup_cons.mp hnd
              have hknew : k ∉ acc.map Prod.fst := hout k (List.mem_cons_self _ _)
              have hout' : ∀ k' ∈ kr, k' ∉ (acc ++ [(k, [w])]).map Prod.fst := by
                intro k' hk'
                simp only [List.map_append, List.mem_append, List.map_cons,
                  List.map_nil, List.mem_singleton, not_or]
                refine ⟨hout k' (List.mem_cons_of_mem _ hk'), ?_⟩
                intro heq
                subst heq
                exact hknotin hk'
              obtain ⟨tail, hb, hsnd⟩ := ih (acc ++ [(k, [w])]) kr hr hkrnd hout'
              refine ⟨(k, [w]) :: tail, ?_, ?_⟩
              · simp only [bucketsAux, hk]
                rw [addToBuckets_new acc k w hknew, hb]
                simp
              · simp [hsnd]

theorem winnersOf_singles : ∀ (bs : List (WKey × List Obj)) (l : List Obj),
    bs.map Prod.snd = l.map (fun w => [w]) → winnersOf bs = .ok l := by
  intro bs
  induction bs with
  | nil =>
      intro l h
      have : l = [] := by
        cases l with
        | nil => rfl
        | cons x xs => simp at h
      subst this
      rfl
  | cons kg rest ih =>
      intro l h
      cases l with
      | nil => simp at h
      | cons w l' =>
          simp only [List.map_cons, List.cons.injEq] at h
          obtain ⟨h1, h2⟩ := h
          have hpick : pickFromGroup kg.2 = .ok w := by
            rw [h1]; rfl
          simp only [winnersOf, hpick, exBind_ok, ih l' h2, exBind_ok]
          rfl

theorem length_le_groupSizes : ∀ bs : List (WKey × List Obj),
    (∀ kg ∈ bs, kg.2 ≠ []) → bs.length ≤ groupSizes bs := by
  intro bs
  induction bs with
  | nil => simp [groupSizes]
  | cons kg rest ih =>
      intro h
      have h1 : kg.2 ≠ [] := h kg (List.mem_cons_self _ _)
      have h2 : 1 ≤ kg.2.length := List.length_pos.mpr h1
      have h3 := ih (fun kg' hk => h kg' (List.mem_cons_of_mem _ hk))
      simp only [groupSizes, List.map_cons, List.sum_cons, List.length_cons] at h3 ⊢
      omega

theorem dedupe_works_ok_spec : ∀ (ws out : List Obj), dedupe_works ws = .ok out →
    ∃ bs, bucketsOf ws = .ok bs ∧ winnersOf bs = .ok out ∧
      (∀ kg ∈ bs, ∀ v ∈ kg.2, derive_key v = .ok kg.1) ∧
      (∀ kg ∈ bs, kg.2 ≠ []) ∧ (bs.map Prod.fst).Nodup ∧
      (∀ v : Obj, (∃ kg ∈ bs, v ∈ kg.2) → v ∈ ws) ∧
      groupSizes bs = ws.length := by
  intro ws out h
  simp only [dedupe_works] at h
  cases hb : bucketsOf ws with
  | error e => rw [hb, exBind_err] at h; exact Except.noConfusion h
  | ok bs =>
      rw [hb, exBind_ok] at h
      obtain ⟨g1, g2, g3, g4, g5⟩ :=
        bucketsAux_inv ws [] bs hb (by simp) (by simp) (by simp)
      refine ⟨bs, rfl, h, g1, g2, g3, ?_, ?_⟩
      · intro v hv
        rcases g4 v hv with hin | hin
        · simp at hin
        · exact hin
      · simpa [groupSizes] using g5

/-! ### Claims about deduplication -/

/-- C3: `dedupe_works` is idempotent — running it again on its own output
returns exactly the same list (and the same error when the first run
raises, since the second run then never happens). -/
theorem dedupe_works_idempotent : ∀ ws : List Obj,
    (dedupe_works ws >>= dedupe_works) = dedupe_works ws := by
  intro ws
  cases h : dedupe_works ws with
  | error e => rw [exBind_err]
  | ok out =>
      rw [exBind_ok]
      obtain ⟨bs, hb, hw, hkeyed, hne, hnd, hmem, hsz⟩ := dedupe_works_ok_spec ws out h
      have hkeys : deriveAll out = .ok (bs.map Prod.fst) := winners_keys bs out hw hkeyed
      obtain ⟨tail, hb2, hsnd⟩ :=
        bucketsAux_singles out [] (bs.map Prod.fst) hkeys hnd (by simp)
      simp only [List.nil_append] at hb2
      have hw2 : winnersOf tail = .ok out := winnersOf_singles tail out hsnd
      simp only [dedupe_works, bucketsOf]
      rw [hb2, exBind_ok, hw2]

/-- C10: every record surviving `dedupe_works` is an unmodified element of
the input, at most one output record derives any given identity key, and
the output is no longer than the input. -/
theorem dedupe_works_invariants : ∀ (ws out : List Obj), dedupe_works ws = .ok out →
    (∀ w ∈ out, w ∈ ws) ∧
    out.Pairwise (fun a b => derive_key a ≠ derive_key b) ∧
    out.length ≤ ws.length := by
  intro ws out h
  obtain ⟨bs, hb, hw, hkeyed, hne, hnd, hmem, hsz⟩ := dedupe_works_ok_spec ws out h
  have hf2 := winnersOf_spec bs out hw
  refine ⟨?_, ?_, ?_⟩
  · intro w hwout
    obtain ⟨kg, hkg, hpick⟩ := forall2_mem_right hf2 w hwout
    exact hmem w ⟨kg, hkg, pickFromGroup_mem kg.2 w hpick⟩
  · exact deriveAll_pairwise out _ (winners_keys bs out hw hkeyed) hnd
  · have hlen : bs.length = out.length := hf2.length_eq
    have hle := length_le_groupSizes bs hne
    omega

/-- Input pair for the C10 witness: two records sharing one DOI. -/
def dupInput : List Obj :=
  [[("doi", PyVal.str "10.9/dup"), ("cited_by_count", PyVal.int 1)],
   [("doi", PyVal.str "10.9/DUP")]]

/-- Output of `dedupe_works` on `dupInput`. -/
def dupOutput : List Obj :=
  match dedupe_works dupInput with
  | .ok out => out
  | .error _ => []

theorem dedupe_works_invariants_witness :
    dedupe_works dupInput = .ok dupOutput ∧
    (∀ w ∈ dupOutput, w ∈ dupInput) ∧
    dupOutput.Pairwise (fun a b => derive_key a ≠ derive_key b) ∧
    dupOutput.length ≤ dupInput.length := by
  have h := dedupe_works_invariants dupInput dupOutput rfl
  exact ⟨rfl, h.1, h.2.1, h.2.2⟩

/-- C1 example: a repository-hosted record with 10 citations. -/
def repoRecord10 : Obj :=
  [("doi", PyVal.str "https://doi.org/10.1/Example"),
   ("cited_by_count", PyVal.int 10),
   ("best_oa_location", PyVal.dict [("source", PyVal.dict [("type", PyVal.str "repository")])])]

/-- C1 example: a journal-hosted record with 4 citations and the same DOI. -/
def journalRecord4 : Obj :=
  [("doi", PyVal.str "10.1/EXAMPLE"),
   ("cited_by_count", PyVal.int 4),
   ("primary_location", PyVal.dict [("source", PyVal.dict [("type", PyVal.str "journal")])])]

/-- C1: within every identity group of size above one that `dedupe_works`
forms, the selected winner carries the lexicographically maximal score
triple `(has_doi, citations, publisher_bonus)` and is the first element of
the group (hence the first encountered in the input) among those attaining
it; in particular, of two records sharing a DOI, the 10-citation
repository record beats the 4-citation journal record. -/
theorem dedupe_winner_max_first :
    (∀ (ws : List Obj) (bs : List (WKey × List Obj)), bucketsOf ws = .ok bs →
      ∀ kg ∈ bs, 1 < kg.2.length → ∀ w, pickFromGroup kg.2 = .ok w →
        ∃ pre post sw, kg.2 = pre ++ w :: post ∧ score w = .ok sw ∧
          (∀ v ∈ kg.2, ∀ sv, score v = .ok sv → lexGe3 sw sv = true) ∧
          (∀ v ∈ pre, ∀ sv, score v = .ok sv → lexGe3 sv sw = false)) ∧
    dedupe_works [repoRecord10, journalRecord4] = .ok [repoRecord10] := by
  constructor
  · intro ws bs hb kg hkg hlen w hpick
    match hgl : kg.2 with
    | [] => rw [hgl] at hlen; simp at hlen
    | [a] => rw [hgl] at hlen; simp at hlen
    | a :: b :: rest =>
        rw [hgl] at hpick
        simp only [pickFromGroup] at hpick
        cases hsc : scoreAll (a :: b :: rest) with
        | error e => rw [hsc, exBind_err] at hpick; exact Except.noConfusion hpick
        | ok sc =>
            rw [hsc, exBind_ok] at hpick
            cases hss : sortStable (fun x y => lexGe3 x.2 y.2) sc with
            | nil => rw [hss] at hpick; exact Except.noConfusion hpick
            | cons p pt =>
                rw [hss] at hpick
                have hw : p.1 = w := Except.ok.inj hpick
                subst hw
                have htot' : ∀ x y : Obj × (Int × Int × Int),
                    lexGe3 x.2 y.2 = true ∨ lexGe3 y.2 x.2 = true :=
                  fun x y => lexGe3_total x.2 y.2
                have htrans' : ∀ x y z : Obj × (Int × Int × Int),
                    lexGe3 x.2 y.2 = true → lexGe3 y.2 z.2 = true →
                    lexGe3 x.2 z.2 = true :=
                  fun x y z => lexGe3_trans x.2 y.2 z.2
                obtain ⟨⟨pre0, post0, hdec, hpre⟩, hmax⟩ :=
                  sortStable_head htot' htrans' sc p pt hss
                obtain ⟨hfst, hscored, hexists⟩ := scoreAll_spec _ _ hsc
                refine ⟨pre0.map Prod.fst, post0.map Prod.fst, p.2, ?_, ?_, ?_, ?_⟩
                · rw [← hfst, hdec]
                  simp
                · refine hscored p ?_
                  rw [hdec]
                  exact List.mem_append_right _ (List.mem_cons_self _ _)
                · intro v hv sv hsv
                  rw [← hfst] at hv
                  obtain ⟨q, hq, hqv⟩ := List.mem_map.mp hv
                  subst hqv
                  have hqs : score q.1 = .ok q.2 := hscored q hq
                  have : sv = q.2 := by
                    rw [hsv] at hqs
                    exact (Except.ok.inj hqs)
                  subst this
                  exact hmax q hq
                · intro v hv sv hsv
                  obtain ⟨q, hq, hqv⟩ := List.mem_map.mp hv
                  subst hqv
                  have hqsc : q ∈ sc := by
                    rw [hdec]
                    exact List.mem_append_left _ hq
                  have hqs : score q.1 = .ok q.2 := hscored q hqsc
                  have : sv = q.2 := by
                    rw [hsv] at hqs
                    exact (Except.ok.inj hqs)
                  subst this
                  exact hpre q hq
  · rfl

/-- The identity group the C1 witness instantiates the theorem on. -/
def exGroup : WKey × List Obj := (WKey.doi "10.1/example", [repoRecord10, journalRecord4])

theorem dedupe_winner_max_first_witness :
    (∃ pre post sw, exGroup.2 = pre ++ repoRecord10 :: post ∧
      score repoRecord10 = .ok sw ∧
      (∀ v ∈ exGroup.2, ∀ sv, score v = .ok sv → lexGe3 sw sv = true) ∧
      (∀ v ∈ pre, ∀ sv, score v = .ok sv → lexGe3 sv sw = false)) ∧
    dedupe_works [repoRecord10, journalRecord4] = .ok [repoRecord10] := by
  refine ⟨?_, dedupe_winner_max_first.2⟩
  exact dedupe_winner_max_first.1 [repoRecord10, journalRecord4] [exGroup] rfl
    exGroup (List.mem_singleton_self _) (by decide) repoRecord10 rfl

/-! ### Key stability and precondition claims -/

theorem get_doi_ids_eq (kvs : List (String × PyVal)) :
    (match Obj.getO kvs "doi" with
      | PyVal.str s => norm_doi s
      | _ => Option.none) =
    (match Obj.getO kvs "doi" with
      | PyVal.str s => Option.some s
      | _ => Option.none).bind norm_doi := by
  cases Obj.getO kvs "doi" <;> rfl

theorem get_doi_eq (w : Obj) : get_doi w = (raw_doi_of w).bind norm_doi := by
  unfold get_doi raw_doi_of
  cases h1 : Obj.getO w "doi" <;>
    first
      | rfl
      | (cases h2 : pyOr (Obj.getO w "ids") (PyVal.dict []) <;>
          first
            | rfl
            | (rename_i kvs
               exact get_doi_ids_eq kvs))

/-- C4: two raw records whose extracted DOI strings normalize to the same
non-empty DOI derive the same `("doi", d)` identity key, whatever the
casing or URL-prefix form and whichever field the DOI sits in; a DOI that
normalizes to nothing counts as absent and the key falls through to the
HAL or fuzzy kind. -/
theorem derive_key_doi_stable :
    (∀ (w1 w2 : Obj) (s1 s2 d : String),
      raw_doi_of w1 = Option.some s1 → raw_doi_of w2 = Option.some s2 →
      norm_doi s1 = Option.some d → norm_doi s2 = Option.some d →
      derive_key w1 = .ok (WKey.doi d) ∧ derive_key w2 = .ok (WKey.doi d)) ∧
    (∀ (w : Obj) (s : String), raw_doi_of w = Option.some s →
      norm_doi s = Option.none →
      get_doi w = Option.none ∧
      ∀ k, derive_key w = .ok k → ∀ d, k ≠ WKey.doi d) := by
  constructor
  · intro w1 w2 s1 s2 d h1 h2 h3 h4
    have hg1 : get_doi w1 = Option.some d := by
      rw [get_doi_eq, h1, Option.some_bind, h3]
    have hg2 : get_doi w2 = Option.some d := by
      rw [get_doi_eq, h2, Option.some_bind, h4]
    constructor
    · simp only [derive_key, hg1]
      rfl
    · simp only [derive_key, hg2]
      rfl
  · intro w s h1 h2
    have hg : get_doi w = Option.none := by
      rw [get_doi_eq, h1, Option.some_bind, h2]
    refine ⟨hg, ?_⟩
    intro k hk d
    simp only [derive_key, hg] at hk
    cases hh : get_hal_id w with
    | error e => rw [hh, exBind_err] at hk; exact Except.noConfusion hk
    | ok oh =>
        rw [hh, exBind_ok] at hk
        cases oh with
        | some hal =>
            have hk' : (Except.ok (WKey.hal hal) : Except PyErr WKey) = .ok k := hk
            have := Except.ok.inj hk'
            subst this
            simp
        | none =>
            cases ht : norm_title_py (pyOr (Obj.getO w "title") (Obj.getO w "display_name")) with
            | error e =>
                rw [ht, exBind_err] at hk
                exact Except.noConfusion hk
            | ok t =>
                rw [ht, exBind_ok] at hk
                cases hf : first_author w with
                | error e =>
                    rw [hf, exBind_err] at hk
                    exact Except.noConfusion hk
                | ok fa =>
                    rw [hf, exBind_ok] at hk
                    have hk' : (Except.ok (WKey.fuzzy
                        (t ++ "|" ++ pyStr (Obj.getO w "publication_year") ++ "|" ++ fa))
                        : Except PyErr WKey) = .ok k := hk
                    have := Except.ok.inj hk'
                    subst this
                    simp

/-- C4 witness record: DOI in URL form in the top-level field. -/
def doiRecUrl : Obj := [("doi", PyVal.str "https://doi.org/10.1/AB")]

/-- C4 witness record: the same DOI in `doi:` form inside `ids`. -/
def doiRecIds : Obj := [("ids", PyVal.dict [("doi", PyVal.str "DOI:10.1/ab")])]

/-- C4 witness record: a DOI string that is empty after normalization. -/
def doiRecEmpty : Obj := [("doi", PyVal.str "doi: ")]

theorem derive_key_doi_stable_witness :
    (derive_key doiRecUrl = .ok (WKey.doi "10.1/ab") ∧
      derive_key doiRecIds = .ok (WKey.doi "10.1/ab")) ∧
    (get_doi doiRecEmpty = Option.none ∧
      ∀ d, WKey.fuzzy "|None|" ≠ WKey.doi d) := by
  constructor
  · exact derive_key_doi_stable.1 doiRecUrl doiRecIds
      "https://doi.org/10.1/AB" "DOI:10.1/ab" "10.1/ab" rfl rfl rfl rfl
  · have h := derive_key_doi_stable.2 doiRecEmpty "doi: " rfl rfl
    exact ⟨h.1, h.2 (WKey.fuzzy "|None|") rfl⟩

/-- Input for the dedupe totality failure: two records sharing a DOI, one
with a non-numeric citation count. -/
def badCitedPair : List Obj :=
  [[("doi", PyVal.str "10.1/x"), ("cited_by_count", PyVal.str "lots")],
   [("doi", PyVal.str "10.1/x")]]

/-- Input for the normalize totality failure: a topics entry that is not a
map. -/
def badTopicsRec : Obj := [("topics", PyVal.list [PyVal.str "oops"])]

/-- Input for the aggregation totality failure: a citations value that is a
non-numeric string. -/
def badCitPaper : List Obj := [[("year", PyVal.int 2020), ("citations", PyVal.str "many")]]

/-- C2: the three functions are not total.  `dedupe_works` raises
`ValueError` from `int("lots")` inside `score` when a duplicated group
contains a non-numeric `cited_by_count`; `normalize_work` raises
`AttributeError` from `x.get("score", 0)` when a topics entry is not a
map; `build_citations_by_year` raises `ValueError` from `int("many")` on a
non-numeric citations value of a record with a year. -/
theorem totality_violations :
    dedupe_works badCitedPair = .error .valueError ∧
    normalize_work badTopicsRec "A5042578790" = .error .attributeError ∧
    build_citations_by_year badCitPaper = .error .valueError :=
  ⟨rfl, rfl, rfl⟩

/-- The record `normalize_work` produces from the empty raw record. -/
def emptyWorkNormalized : Obj :=
  [("id", PyVal.none), ("title", PyVal.str "Untitled"), ("year", PyVal.none),
   ("venue", PyVal.str "—"), ("citations", PyVal.int 0), ("doi", PyVal.none),
   ("url", PyVal.str "#"), ("hal_url", PyVal.none), ("type", PyVal.str "—"),
   ("is_oa", PyVal.bool false), ("oa_status", PyVal.str "unknown"),
   ("fwci", PyVal.none), ("citation_norm_percentile", PyVal.none),
   ("topics", PyVal.list []), ("keywords", PyVal.list []),
   ("coauthors", PyVal.list []), ("source", PyVal.str "OpenAlex")]

/-- C8: `normalize_work` on the empty raw record succeeds for every
subject-author id and yields the documented defaults. -/
theorem normalize_work_empty_defaults : ∀ self : String,
    normalize_work [] self = .ok emptyWorkNormalized ∧
    Obj.getO emptyWorkNormalized "title" = .str "Untitled" ∧
    Obj.getO emptyWorkNormalized "citations" = .int 0 ∧
    Obj.getO emptyWorkNormalized "year" = PyVal.none ∧
    Obj.getO emptyWorkNormalized "venue" = .str "—" ∧
    Obj.getO emptyWorkNormalized "url" = .str "#" :=
  fun _ => ⟨rfl, rfl, rfl, rfl, rfl, rfl⟩

/-- C9: an author id that is empty after trimming and prefix-stripping is
a fatal `ValueError` and the whole pipeline aborts with it before
producing any report; every non-empty cleaned id passes the precondition. -/
theorem author_id_precondition :
    (∀ raw, strippedAuthorId raw = "" →
      normalize_author_id raw = .error .valueError ∧
      ∀ ws : List Obj, runPipeline raw ws = .error .valueError) ∧
    (∀ raw, strippedAuthorId raw ≠ "" →
      ∃ a, normalize_author_id raw = .ok a) := by
  constructor
  · intro raw h
    have hna : normalize_author_id raw = .error .valueError := by
      simp [normalize_author_id, h]
    refine ⟨hna, ?_⟩
    intro ws
    simp only [runPipeline, hna, exBind_err]
  · intro raw h
    by_cases hs : pyStartsWith (strippedAuthorId raw) "A"
    · exact ⟨strippedAuthorId raw, by simp [normalize_author_id, h, hs]⟩
    · refine ⟨"A" ++ String.mk ((strippedAuthorId raw).data.dropWhile (· == 'A')), ?_⟩
      simp [normalize_author_id, h, hs]

theorem author_id_precondition_witness :
    (normalize_author_id " https://openalex.org/ " = .error .valueError ∧
      runPipeline " https://openalex.org/ " [] = .error .valueError) ∧
    ∃ a, normalize_author_id "a504" = .ok a := by
  constructor
  · have h := author_id_precondition.1 " https://openalex.org/ " rfl
    exact ⟨h.1, h.2 []⟩
  · exact author_id_precondition.2 "a504" (by decide)

/-! ### The citations field of normalized records -/

theorem exBind_pure {α β : Type} (a : α) (f : α → Except PyErr β) :
    ((pure a : Except PyErr α) >>= f) = f a := rfl

theorem exBind_ok_inv {α β : Type} {e : Except PyErr α} {f : α → Except PyErr β} {b : β}
    (h : (e >>= f) = .ok b) : ∃ a, e = .ok a ∧ f a = .ok b := by
  cases e with
  | error er => rw [exBind_err] at h; exact Except.noConfusion h
  | ok a => exact ⟨a, rfl, h⟩

theorem normalize_work_ok_citations : ∀ (w : Obj) (self : String) (d : Obj),
    normalize_work w self = .ok d →
    Obj.getO d "citations" = .int ((safe_int (Obj.getO w "cited_by_count")).getD 0) := by
  intro w self d h
  rw [normalize_work] at h
  cases ht0 : pyOr (Obj.getO w "title") (PyVal.str "") <;> rw [ht0] at h <;>
    simp only [exBind_pure, exBind_err] at h <;>
    first
      | exact Except.noConfusion h
      | skip
  by_cases hdoi : truthy (Obj.getO w "doi") = true
  case pos =>
    rw [if_pos hdoi] at h
    obtain ⟨_, -, h⟩ := exBind_ok_inv h
    obtain ⟨_, -, h⟩ := exBind_ok_inv h
    obtain ⟨_, -, h⟩ := exBind_ok_inv h
    cases hty0 : pyOr (Obj.getO w "type") (pyOr (Obj.getO w "type_crossref") (PyVal.str "")) <;>
      rw [hty0] at h <;> simp only [exBind_pure, exBind_err] at h <;>
      first
        | exact Except.noConfusion h
        | (obtain ⟨_, -, h⟩ := exBind_ok_inv h
           obtain ⟨_, -, h⟩ := exBind_ok_inv h
           obtain ⟨_, -, h⟩ := exBind_ok_inv h
           obtain ⟨_, -, h⟩ := exBind_ok_inv h
           obtain ⟨_, -, h⟩ := exBind_ok_inv h
           obtain ⟨_, -, h⟩ := exBind_ok_inv h
           have hd := exPure_ok h
           subst hd
           simp [Obj.getO, List.lookup])
  case neg =>
    rw [if_neg hdoi] at h
    obtain ⟨_, -, h⟩ := exBind_ok_inv h
    obtain ⟨_, -, h⟩ := exBind_ok_inv h
    obtain ⟨_, -, h⟩ := exBind_ok_inv h
    obtain ⟨_, -, h⟩ := exBind_ok_inv h
    cases hty0 : pyOr (Obj.getO w "type") (pyOr (Obj.getO w "type_crossref") (PyVal.str "")) <;>
      rw [hty0] at h <;> simp only [exBind_pure, exBind_err] at h <;>
      first
        | exact Except.noConfusion h
        | (obtain ⟨_, -, h⟩ := exBind_ok_inv h
           obtain ⟨_, -, h⟩ := exBind_ok_inv h
           obtain ⟨_, -, h⟩ := exBind_ok_inv h
           obtain ⟨_, -, h⟩ := exBind_ok_inv h
           obtain ⟨_, -, h⟩ := exBind_ok_inv h
           obtain ⟨_, -, h⟩ := exBind_ok_inv h
           have hd := exPure_ok h
           subst hd
           simp [Obj.getO, List.lookup])

/-- C6 counterexample input: a raw record with a negative citation count. -/
def negCitRec : Obj := [("cited_by_count", PyVal.int (-5))]

/-- The record `normalize_work` produces from `negCitRec`. -/
def negCitOut : Obj :=
  match normalize_work negCitRec "A5042578790" with
  | .ok d => d
  | .error _ => []

/-- C6 counterexample: `normalize_work` passes a negative raw
`cited_by_count` straight through (`_safe_int(x) or 0` keeps every
non-zero integer), so its citations field is not always non-negative. -/
theorem normalize_work_negative_citations :
    normalize_work negCitRec "A5042578790" = .ok negCitOut ∧
    Obj.getO negCitOut "citations" = .int (-5) ∧ ¬ (0 : Int) ≤ -5 :=
  ⟨rfl, rfl, by decide⟩

/-- C6 (amended): the citations field `normalize_work` produces is always
the integer `_safe_int(cited_by_count) or 0`; it is 0 whenever the raw
value is missing or invalid, and it is non-negative whenever the coerced
raw value is non-negative. -/
theorem normalize_work_citations_spec : ∀ (w : Obj) (self : String) (d : Obj),
    normalize_work w self = .ok d →
    Obj.getO d "citations" = .int ((safe_int (Obj.getO w "cited_by_count")).getD 0) ∧
    (safe_int (Obj.getO w "cited_by_count") = Option.none →
      Obj.getO d "citations" = .int 0) ∧
    ∀ n, safe_int (Obj.getO w "cited_by_count") = Option.some n → 0 ≤ n →
      ∃ m, Obj.getO d "citations" = .int m ∧ 0 ≤ m := by
  intro w self d h
  have hcit := normalize_work_ok_citations w self d h
  refine ⟨hcit, ?_, ?_⟩
  · intro hn
    rw [hcit, hn]
    rfl
  · intro n hn hpos
    refine ⟨n, ?_, hpos⟩
    rw [hcit, hn]
    rfl

/-- C6 witness input: a raw record with seven citations. -/
def cit7Rec : Obj := [("cited_by_count", PyVal.int 7)]

/-- The record `normalize_work` produces from `cit7Rec`. -/
def cit7Out : Obj :=
  match normalize_work cit7Rec "A5042578790" with
  | .ok d => d
  | .error _ => []

theorem normalize_work_citations_spec_witness :
    normalize_work cit7Rec "A5042578790" = .ok cit7Out ∧
    ∃ m, Obj.getO cit7Out "citations" = .int m ∧ 0 ≤ m := by
  refine ⟨rfl, ?_⟩
  exact (normalize_work_citations_spec cit7Rec "A5042578790" cit7Out rfl).2.2 7 rfl
    (by decide)

/-! ### Report ordering -/

/-- C7: the works list of every report the pipeline produces is sorted by
year descending — a missing year counting as 0, so such works sort last
among non-negative years — with ties broken by citations descending; the
key components agree with the record's year and citations fields. -/
theorem report_works_sorted :
    (∀ (rid : String) (ws : List Obj) (r : Report), runPipeline rid ws = .ok r →
      r.works.Pairwise (fun a b =>
        (mainSortKey b).1 < (mainSortKey a).1 ∨
        ((mainSortKey a).1 = (mainSortKey b).1 ∧ (mainSortKey b).2 ≤ (mainSortKey a).2))) ∧
    (∀ (p : Obj) (y : Int), Obj.getO p "year" = .int y → (mainSortKey p).1 = y) ∧
    (∀ p : Obj, Obj.getO p "year" = PyVal.none → (mainSortKey p).1 = 0) ∧
    (∀ (p : Obj) (n : Int), Obj.getO p "citations" = .int n → (mainSortKey p).2 = n) := by
  refine ⟨?_, ?_, ?_, ?_⟩
  · intro rid ws r h
    rw [runPipeline] at h
    obtain ⟨_, -, h⟩ := exBind_ok_inv h
    obtain ⟨_, -, h⟩ := exBind_ok_inv h
    obtain ⟨papers0, -, h⟩ := exBind_ok_inv h
    obtain ⟨_, -, h⟩ := exBind_ok_inv h
    obtain ⟨_, -, h⟩ := exBind_ok_inv h
    have hr := exPure_ok h
    subst hr
    have hsorted := sortStable_pairwise
      (fun a b => lexGe2_total (mainSortKey a) (mainSortKey b))
      (fun a b c => lexGe2_trans (mainSortKey a) (mainSortKey b) (mainSortKey c))
      papers0
    refine hsorted.imp ?_
    intro a b hab
    simpa [lexGe2, decide_eq_true_eq] using hab
  · intro p y hp
    by_cases hy : y = 0
    · subst hy
      simp [mainSortKey, hp, pyKeyInt, pyOr, truthy]
    · simp [mainSortKey, hp, pyKeyInt, pyOr, truthy, hy]
  · intro p hp
    simp [mainSortKey, hp, pyKeyInt, pyOr, truthy]
  · intro p n hp
    by_cases hn : n = 0
    · subst hn
      simp [mainSortKey, hp, pyKeyInt, pyOr, truthy]
    · simp [mainSortKey, hp, pyKeyInt, pyOr, truthy, hn]

/-- C7 witness input: two fuzzy-keyed records from different years. -/
def pipeWorksIn : List Obj :=
  [[("title", PyVal.str "B"), ("publication_year", PyVal.int 2020),
    ("cited_by_count", PyVal.int 3)],
   [("title", PyVal.str "A"), ("publication_year", PyVal.int 2021),
    ("cited_by_count", PyVal.int 1)]]

/-- The report the pipeline produces from `pipeWorksIn`. -/
def pipeReport : Report :=
  match runPipeline "A1" pipeWorksIn with
  | .ok r => r
  | .error _ => { author_openalex_id := "", papers_tracked := 0,
                  total_citations := 0, citations_by_year := [], works := [] }

theorem report_works_sorted_witness :
    runPipeline "A1" pipeWorksIn = .ok pipeReport ∧
    pipeReport.works.Pairwise (fun a b =>
      (mainSortKey b).1 < (mainSortKey a).1 ∨
      ((mainSortKey a).1 = (mainSortKey b).1 ∧ (mainSortKey b).2 ≤ (mainSortKey a).2)) :=
  ⟨rfl, report_works_sorted.1 "A1" pipeWorksIn pipeReport rfl⟩

/-! ### Aggregation -/

/-- Citation count a record contributes to the aggregates (missing or
`None` counts as 0) — the specification's reading, to be matched against
the code. -/
def citOfD (p : Obj) : Int :=
  match Obj.getO p "citations" with
  | .int n => n
  | _ => 0

/-- The year of a record, when it has one. -/
def yearOfD (p : Obj) : Option Int :=
  match Obj.getO p "year" with
  | .int y => Option.some y
  | _ => Option.none

/-- Total citations of the records carrying year `y`. -/
def citSumFor (papers : List Obj) (y : Int) : Int :=
  ((papers.filter fun p => yearOfD p == Option.some y).map citOfD).sum

/-- The distinct years occurring among the records that have one. -/
def distinctYears (papers : List Obj) : List Int :=
  (papers.filterMap yearOfD).dedup

/-- Ascending sort of a list of years. -/
def sortAscInt (l : List Int) : List Int :=
  sortStable (fun a b : Int => decide (a ≤ b)) l

/-- Field shape of the records `normalize_work` produces: the citations
value is an integer (or missing), the year an integer or `None`. -/
def NormalizedShape (p : Obj) : Prop :=
  (Obj.getO p "citations" = PyVal.none ∨ ∃ n, Obj.getO p "citations" = PyVal.int n) ∧
  (Obj.getO p "year" = PyVal.none ∨ ∃ y, Obj.getO p "year" = PyVal.int y)

theorem cit_coerce (p : Obj) (hp : NormalizedShape p) :
    pyInt (pyOr (Obj.getO p "citations") (.int 0)) = .ok (citOfD p) := by
  rcases hp.1 with h | ⟨n, h⟩
  · simp [h, pyOr, truthy, pyInt, citOfD]
  · by_cases hn : n = 0
    · subst hn
      simp [h, pyOr, truthy, pyInt, citOfD]
    · simp [h, pyOr, truthy, pyInt, citOfD, hn]

theorem year_coerce (p : Obj) (hp : NormalizedShape p) :
    pyAsInt (Obj.getO p "year") = yearOfD p := by
  rcases hp.2 with h | ⟨y, h⟩ <;> simp [h, pyAsInt, yearOfD]

theorem sumCitations_spec : ∀ papers : List Obj,
    (∀ p ∈ papers, NormalizedShape p) →
    sumCitations papers = .ok ((papers.map citOfD).sum) := by
  intro papers
  induction papers with
  | nil => intro _; simp [sumCitations]
  | cons p ps ih =>
      intro hWF
      have hp := hWF p (List.mem_cons_self _ _)
      have hps := ih fun q hq => hWF q (List.mem_cons_of_mem _ hq)
      simp only [sumCitations, cit_coerce p hp, hps, exBind_ok]
      simp only [List.map_cons, List.sum_cons]
      rfl

theorem citSumFor_cons (p : Obj) (ps : List Obj) (z : Int) :
    citSumFor (p :: ps) z =
      (if yearOfD p = Option.some z then citOfD p else 0) + citSumFor ps z := by
  by_cases h : yearOfD p = Option.some z
  · have hb : (yearOfD p == Option.some z) = true := by simp [h]
    simp [citSumFor, List.filter, h, hb]
  · have hb : (yearOfD p == Option.some z) = false := by simp [h]
    simp [citSumFor, List.filter, h, hb]

theorem bumpYear_lookupD : ∀ (m : List (Int × Int)) (y c z : Int),
    ((List.lookup z (bumpYear m y c)).getD 0 : Int) =
      (List.lookup z m).getD 0 + (if z = y then c else 0) := by
  intro m y c
  induction m with
  | nil =>
      intro z
      by_cases hz : z = y
      · have hzb : (z == y) = true := by simp [hz]
        simp [bumpYear, List.lookup, hzb, hz]
      · have hzb : (z == y) = false := by simp [hz]
        simp [bumpYear, List.lookup, hzb, hz]
  | cons yc rest ih =>
      obtain ⟨y0, t⟩ := yc
      intro z
      by_cases h0 : y0 = y
      · subst h0
        have h0b : (y0 == y0) = true := by simp
        by_cases hz : z = y0
        · have hzb : (z == y0) = true := by simp [hz]
          simp [bumpYear, List.lookup, h0b, hzb, hz]
        · have hzb : (z == y0) = false := by simp [hz]
          simp [bumpYear, List.lookup, h0b, hzb, hz]
      · have hb : (y0 == y) = false := by simp [h0]
        by_cases hz : z = y0
        · have hzy : ¬ z = y := by rw [hz]; exact h0
          have hzb : (z == y0) = true := by simp [hz]
          simp [bumpYear, List.lookup, hb, hzb, hzy]
        · have hzb : (z == y0) = false := by simp [hz]
          simp [bumpYear, List.lookup, hb, hzb, ih z]

theorem bumpYear_keys_mem : ∀ (m : List (Int × Int)) (y c z : Int),
    z ∈ (bumpYear m y c).map Prod.fst ↔ (z ∈ m.map Prod.fst ∨ z = y) := by
  intro m y c
  induction m with
  | nil => intro z; simp [bumpYear]
  | cons yc rest ih =>
      obtain ⟨y0, t⟩ := yc
      intro z
      by_cases h0 : y0 = y
      · subst h0
        have h0b : (y0 == y0) = true := by simp
        simp [bumpYear, h0b]
        tauto
      · have hb : (y0 == y) = false := by simp [h0]
        simp [bumpYear, hb, ih z]
        tauto

theorem bumpYear_keys_nodup : ∀ (m : List (Int × Int)) (y c : Int),
    (m.map Prod.fst).Nodup → ((bumpYear m y c).map Prod.fst).Nodup := by
  intro m y c
  induction m with
  | nil => intro _; simp [bumpYear]
  | cons yc rest ih =>
      obtain ⟨y0, t⟩ := yc
      intro hnd
      simp only [List.map_cons, List.nodup_cons] at hnd
      obtain ⟨hnotin, hrest⟩ := hnd
      by_cases h0 : y0 = y
      · subst h0
        have h0b : (y0 == y0) = true := by simp
        simp [bumpYear, h0b, List.nodup_cons, hnotin, hrest]
      · have hb : (y0 == y) = false := by simp [h0]
        simp only [bumpYear, hb, Bool.false_eq_true, if_false, List.map_cons,
          List.nodup_cons]
        refine ⟨?_, ih hrest⟩
        rw [bumpYear_keys_mem]
        rintro (h | h)
        · exact hnotin h
        · exact h0 h

theorem byYearAux_spec : ∀ (ps : List Obj) (m : List (Int × Int)),
    (∀ p ∈ ps, NormalizedShape p) →
    ∃ mf, byYearAux m ps = .ok mf ∧
      (∀ z, ((List.lookup z mf).getD 0 : Int) =
        (List.lookup z m).getD 0 + citSumFor ps z) ∧
      (∀ z, z ∈ mf.map Prod.fst ↔ (z ∈ m.map Prod.fst ∨ z ∈ ps.filterMap yearOfD)) ∧
      ((m.map Prod.fst).Nodup → (mf.map Prod.fst).Nodup) := by
  intro ps
  induction ps with
  | nil =>
      intro m _
      refine ⟨m, rfl, ?_, by simp, fun h => h⟩
      intro z
      simp [citSumFor]
  | cons p ps ih =>
      intro m hWF
      have hp := hWF p (List.mem_cons_self _ _)
      have hWF' := fun q hq => hWF q (List.mem_cons_of_mem _ hq)
      cases hy : yearOfD p with
      | some y =>
          obtain ⟨mf, hmf, g1, g2, g3⟩ := ih (bumpYear m y (citOfD p)) hWF'
          refine ⟨mf, ?_, ?_, ?_, ?_⟩
          · simp only [byYearAux, year_coerce p hp, hy, cit_coerce p hp]
            exact hmf
          · intro z
            rw [g1 z, bumpYear_lookupD, citSumFor_cons]
            by_cases hz : z = y
            · simp [hz, hy]
              omega
            · have hne : ¬ yearOfD p = Option.some z := by
                rw [hy]
                intro hc
                exact hz (Option.some.inj hc).symm
              simp [hz, hne]
          · intro z
            rw [g2 z, bumpYear_keys_mem]
            simp only [List.filterMap_cons, hy, List.mem_cons]
            tauto
          · intro hnd
            exact g3 (bumpYear_keys_nodup m y _ hnd)
      | none =>
          obtain ⟨mf, hmf, g1, g2, g3⟩ := ih m hWF'
          refine ⟨mf, ?_, ?_, ?_, g3⟩
          · simp only [byYearAux, year_coerce p hp, hy]
            exact hmf
          · intro z
            rw [g1 z, citSumFor_cons]
            have hne : ¬ yearOfD p = Option.some z := by simp [hy]
            simp [hne]
          · intro z
            rw [g2 z]
            simp [List.filterMap_cons, hy]

theorem perm_of_nodup_mem {l1 l2 : List Int} (h1 : l1.Nodup) (h2 : l2.Nodup)
    (h : ∀ a, a ∈ l1 ↔ a ∈ l2) : List.Perm l1 l2 := by
  rw [List.perm_iff_count]
  intro a
  rw [List.count_eq_of_nodup h1, List.count_eq_of_nodup h2]
  by_cases ha : a ∈ l1
  · simp [ha, (h a).mp ha]
  · have hb : a ∉ l2 := fun hc => ha ((h a).mpr hc)
    simp [ha, hb]

theorem sortAscInt_sorted (l : List Int) :
    (sortAscInt l).Pairwise (fun a b : Int => a ≤ b) := by
  have := sortStable_pairwise intLe_total intLe_trans l
  exact this.imp fun hab => by simpa using hab

theorem sortAscInt_eq {l1 l2 : List Int} (h1 : l1.Nodup) (h2 : l2.Nodup)
    (h : ∀ a, a ∈ l1 ↔ a ∈ l2) : sortAscInt l1 = sortAscInt l2 := by
  have hperm : List.Perm (sortAscInt l1) (sortAscInt l2) :=
    ((sortStable_perm _ l1).trans (perm_of_nodup_mem h1 h2 h)).trans
      (sortStable_perm _ l2).symm
  exact List.eq_of_perm_of_sorted hperm (sortAscInt_sorted l1) (sortAscInt_sorted l2)

/-- C5: on normalized records, `sum(int(p.get("citations") or 0))` is the
plain sum of the citation counts (missing or `None` counting as 0), and
`build_citations_by_year` emits exactly one `(year, sum)` object per
distinct year of the records that have one, in ascending year order. -/
theorem aggregates_correct : ∀ papers : List Obj,
    (∀ p ∈ papers, NormalizedShape p) →
    sumCitations papers = .ok ((papers.map citOfD).sum) ∧
    build_citations_by_year papers =
      .ok ((sortAscInt (distinctYears papers)).map fun y =>
        [("year", PyVal.int y), ("citations", PyVal.int (citSumFor papers y))]) := by
  intro papers hWF
  refine ⟨sumCitations_spec papers hWF, ?_⟩
  obtain ⟨mf, hmf, g1, g2, g3⟩ := byYearAux_spec papers [] hWF
  have hnd : (mf.map Prod.fst).Nodup := g3 (by simp)
  have hmem : ∀ z, z ∈ mf.map Prod.fst ↔ z ∈ distinctYears papers := by
    intro z
    rw [g2 z]
    simp [distinctYears, List.mem_dedup]
  have hkeys : sortAscInt (mf.map Prod.fst) = sortAscInt (distinctYears papers) :=
    sortAscInt_eq hnd (List.nodup_dedup _) hmem
  have hlook : ∀ z, ((List.lookup z mf).getD 0 : Int) = citSumFor papers z := by
    intro z
    rw [g1 z]
    simp [List.lookup]
  simp only [build_citations_by_year, hmf, exBind_ok]
  have hfin : sortStable (fun a b : Int => decide (a ≤ b)) (mf.map Prod.fst) =
      sortAscInt (distinctYears papers) := hkeys
  rw [hfin]
  refine congrArg Except.ok ?_
  refine List.map_congr_left ?_
  intro y _
  rw [hlook y]

/-- C5 witness input: normalized records with years `[2020, 2020, 2021]`
and citations `[5, 3, 7]`. -/
def exPapers : List Obj :=
  [[("year", PyVal.int 2020), ("citations", PyVal.int 5)],
   [("year", PyVal.int 2020), ("citations", PyVal.int 3)],
   [("year", PyVal.int 2021), ("citations", PyVal.int 7)]]

theorem aggregates_correct_witness :
    sumCitations exPapers = .ok 15 ∧
    build_citations_by_year exPapers =
      .ok [[("year", PyVal.int 2020), ("citations", PyVal.int 8)],
           [("year", PyVal.int 2021), ("citations", PyVal.int 7)]] := by
  have hWF : ∀ p ∈ exPapers, NormalizedShape p := by
    intro p hp
    simp only [exPapers, List.mem_cons, List.not_mem_nil, or_false] at hp
    rcases hp with rfl | rfl | rfl
    · exact ⟨Or.inr ⟨5, rfl⟩, Or.inr ⟨2020, rfl⟩⟩
    · exact ⟨Or.inr ⟨3, rfl⟩, Or.inr ⟨2020, rfl⟩⟩
    · exact ⟨Or.inr ⟨7, rfl⟩, Or.inr ⟨2021, rfl⟩⟩
  have h := aggregates_correct exPapers hWF
  exact ⟨h.1, h.2⟩
